import Mathlib

/-!
Verification of the `token_expander` tokenizer (`src/lib.rs`).

The pattern is modelled as its UTF-8 byte sequence, `List Nat` (each entry a
byte value `< 256`); Rust guarantees a `&str` holds valid UTF-8, which is
captured by the `validUtf8` predicate below and assumed only where a claim
needs it.  A `char` value is represented by its UTF-8 byte sequence (a
bijective representation of the code point), so `Token::Escaped(c)` carries
the byte list of `c`.  The `u8` fields `flags`, `level` and `escape` are
`Nat`s kept below 256; the one place `u8` arithmetic can wrap
(`self.level += 1`) is modelled with an explicit `% 256`, matching release
overflow semantics.  The `while` loop of `Tokenizer::next` is modelled by
`scanLoop` with a gas parameter that bounds `data.len() - read`, the exact
quantity the loop strictly decreases.
-/

/-- Flag bit `ESCAPED` from the source (`const ESCAPED: u8 = 1`). -/
def ESCAPED : Nat := 1

/-- Flag bit `INNER_TOKENS` from the source (`const INNER_TOKENS: u8 = 2`). -/
def INNER_TOKENS : Nat := 2

/-- The tokenizer state: `struct Tokenizer` with `data`, `read`, `flags`,
`level`, `escape`. -/
structure Tokenizer where
  data : List Nat
  read : Nat
  flags : Nat
  level : Nat
  escape : Nat
deriving Repr, DecidableEq

/-- `enum Token`: an escaped character (represented by its UTF-8 bytes),
a key with its nesting flag, or normal text. -/
inductive Token where
  | Escaped : List Nat → Token
  | Key : List Nat → Bool → Token
  | Normal : List Nat → Token
deriving Repr, DecidableEq

/-- Rust slice `&data[a..b]` on the byte level (boundary checks are modelled
separately by the panic predicates). -/
def listSlice (l : List Nat) (a b : Nat) : List Nat :=
  (l.take b).drop a

/-- Length in bytes of the UTF-8 character whose leading byte is `b`; the
value `char::len_utf8` returns for the character `chars().next()` decodes at
a position holding `b`.  (For a continuation byte -- impossible at a char
boundary of valid UTF-8 -- the value is irrelevant and set to 1.) -/
def utf8CharLen (b : Nat) : Nat :=
  if b < 128 then 1
  else if b < 192 then 1
  else if b < 224 then 2
  else if b < 240 then 3
  else 4

/-- `Tokenizer::escaped_character`: decode one code point at the cursor and
advance past it; at end of input return `Escaped('\\')` (byte 92) without
moving.  The decoded character is represented by its byte sequence. -/
def Tokenizer.escapedCharacter (t : Tokenizer) : Token × Tokenizer :=
  match t.data.drop t.read with
  | [] => (Token.Escaped [92], t)
  | b :: _ =>
    (Token.Escaped ((t.data.drop t.read).take (utf8CharLen b)),
     { t with read := t.read + utf8CharLen b })

/-- The code after the `while` loop of `Tokenizer::next` (lines 197-207):
`self.read = self.data.len()`, then emit the remaining span as `Key` (if
`level != 0`), as `Normal`, or signal exhaustion if it is empty. -/
def Tokenizer.endPhase (t : Tokenizer) (start : Nat) : Option Token × Tokenizer :=
  let t1 : Tokenizer := { t with read := t.data.length }
  let remaining := t1.data.drop start
  if remaining = [] then (none, t1)
  else if t1.level ≠ 0 then
    (some (Token.Key remaining (decide (t1.flags &&& INNER_TOKENS ≠ 0))),
     { t1 with flags := t1.flags &&& (INNER_TOKENS ^^^ 255) })
  else (some (Token.Normal remaining), t1)

/-- The `while self.read < self.data.len()` loop of `Tokenizer::next`
(lines 157-195).  `gas` is an upper bound on `data.length - read`; the loop
body decreases that quantity by at least one each iteration, so calling with
`gas = data.length - read` reproduces the loop exactly. -/
def Tokenizer.scanLoop : Nat → Tokenizer → Nat → Option Token × Tokenizer
  | 0, t, start => Tokenizer.endPhase t start
  | gas + 1, t, start =>
    if t.read < t.data.length then
      let b := t.data.getD t.read 0
      if t.level = 0 ∧ b = t.escape then
        -- escape byte at depth 0 (lines 158-167)
        let token := listSlice t.data start t.read
        let t1 : Tokenizer := { t with read := t.read + 1 }
        if token = [] then
          let p := t1.escapedCharacter
          (some p.1, p.2)
        else
          (some (Token.Normal token), { t1 with flags := t1.flags ||| ESCAPED })
      else if t.level ≠ 0 ∧ b = 125 then
        -- close byte `}` while inside a placeholder (lines 168-176)
        let t1 : Tokenizer := { t with read := t.read + 1, level := t.level - 1 }
        if t1.level = 0 then
          (some (Token.Key (listSlice t1.data start (t1.read - 1))
                   (decide (t1.flags &&& INNER_TOKENS ≠ 0))),
           { t1 with flags := t1.flags &&& (INNER_TOKENS ^^^ 255) })
        else Tokenizer.scanLoop gas t1 start
      else if 2 < t.data.length - t.read ∧ b = 36 ∧ t.data.getD (t.read + 1) 0 = 123 then
        -- open sequence `${` (lines 177-191)
        if t.level = 0 then
          let token := listSlice t.data start t.read
          let t1 : Tokenizer :=
            { t with level := (t.level + 1) % 256, read := t.read + 2 }
          if token ≠ [] then (some (Token.Normal token), t1)
          else Tokenizer.scanLoop gas t1 t1.read
        else
          Tokenizer.scanLoop gas
            { t with flags := t.flags ||| INNER_TOKENS,
                     level := (t.level + 1) % 256, read := t.read + 2 } start
      else
        Tokenizer.scanLoop gas { t with read := t.read + 1 } start
    else Tokenizer.endPhase t start

/-- `Tokenizer::next` (`impl Iterator`, lines 145-208): pending escape first,
then exhaustion, then the scan loop starting a fresh span at the cursor. -/
def Tokenizer.next (t : Tokenizer) : Option Token × Tokenizer :=
  if t.flags &&& ESCAPED ≠ 0 then
    let t1 : Tokenizer := { t with flags := t.flags ^^^ ESCAPED }
    let p := t1.escapedCharacter
    (some p.1, p.2)
  else if t.data.length ≤ t.read then (none, t)
  else Tokenizer.scanLoop (t.data.length - t.read) t t.read

/-- `Tokenizer::new`: cursor 0, no flags, depth 0, escape byte `\\` (92). -/
def Tokenizer.new (data : List Nat) : Tokenizer :=
  { data := data, read := 0, level := 0, flags := 0, escape := 92 }

/-- `TokenizerExt::set_escape`. -/
def Tokenizer.setEscape (t : Tokenizer) (escape : Nat) : Tokenizer :=
  { t with escape := escape }

/-- `TokenizerExt::get_escape`. -/
def Tokenizer.getEscape (t : Tokenizer) : Nat :=
  t.escape

/-- `TokenizerExt::len`: `self.data.len()`. -/
def Tokenizer.len (t : Tokenizer) : Nat :=
  t.data.length

/-- `TokenizerExt::is_empty` exactly as written in the source:
`self.len() != 0`. -/
def Tokenizer.isEmpty (t : Tokenizer) : Bool :=
  decide (t.len ≠ 0)

/-- Driving the iterator to exhaustion (what `collect()` does in the tests):
list of emitted tokens together with the state at exhaustion.  `fuel` bounds
the number of `next` calls; `data.length + 2` always suffices because every
emitted token strictly decreases `data.length - read + (flags &&& 1)`. -/
def Tokenizer.tokenizeAux : Nat → Tokenizer → List Token × Tokenizer
  | 0, t => ([], t)
  | fuel + 1, t =>
    match t.next with
    | (none, t') => ([], t')
    | (some tok, t') =>
      let p := Tokenizer.tokenizeAux fuel t'
      (tok :: p.1, p.2)

/-- All tokens the iterator yields, in order. -/
def Tokenizer.tokens (t : Tokenizer) : List Token :=
  (Tokenizer.tokenizeAux (t.data.length + 2) t).1

/-- The state after the iterator is exhausted. -/
def Tokenizer.finalState (t : Tokenizer) : Tokenizer :=
  (Tokenizer.tokenizeAux (t.data.length + 2) t).2

/-- A resolver outcome, `Result<bool, E>` with the (possibly mutated) output
buffer made explicit: the Rust closure `FnMut(&mut String, Token) ->
Result<bool, T>` becomes a pure function returning the new buffer. -/
def Resolver (ε : Type) : Type :=
  List Nat → Token → Except ε (List Nat × Bool)

/-- The loop body of `TokenizerExt::expand` as a fold over an explicit token
list: stop with the accumulated buffer on `Ok(false)` or exhaustion,
propagate `Err` immediately. -/
def expandTokens {ε : Type} (f : Resolver ε) : List Token → List Nat → Except ε (List Nat)
  | [], buf => Except.ok buf
  | tok :: rest, buf =>
    match f buf tok with
    | Except.error e => Except.error e
    | Except.ok (buf', cont) =>
      if cont then expandTokens f rest buf' else Except.ok buf'

/-- `TokenizerExt::expand`, pulling tokens via `next` (the `for token in
self` loop): fuelled like `tokenizeAux`. -/
def Tokenizer.expandAux {ε : Type} : Nat → Tokenizer → Resolver ε → List Nat → Except ε (List Nat)
  | 0, _, _, buf => Except.ok buf
  | fuel + 1, t, f, buf =>
    match t.next with
    | (none, _) => Except.ok buf
    | (some tok, t') =>
      match f buf tok with
      | Except.error e => Except.error e
      | Except.ok (buf', cont) =>
        if cont then Tokenizer.expandAux fuel t' f buf' else Except.ok buf'

/-- `TokenizerExt::expand(map)`: iterate `next`, feed each token to the
resolver with the output buffer (initially empty; `with_capacity` and
`shrink_to_fit` only affect capacity), return the buffer or the first
error. -/
def Tokenizer.expand {ε : Type} (t : Tokenizer) (f : Resolver ε) : Except ε (List Nat) :=
  Tokenizer.expandAux (t.data.length + 2) t f []

/-! ## UTF-8 validity and the panic model

Rust `&str` slicing (`&self.data[a..b]`, `&self.data[a..]`) panics when an
index is not a character boundary.  The functions below replicate exactly
the boundary checks the `str` indexing in `Tokenizer::next` and
`Tokenizer::escaped_character` performs, along the same control flow as
`scanLoop`; `nextPanics t = true` means the corresponding Rust call panics.
-/

/-- A UTF-8 continuation byte (`0x80..0xBF`). -/
def isContByte (b : Nat) : Bool :=
  decide (128 ≤ b ∧ b < 192)

/-- Structural UTF-8 validity, with `k` pending continuation bytes still
owed by the current scalar sequence: a lead byte announces how many
continuation bytes follow (one for `0xC0..`, two for `0xE0..`, three for
`0xF0..`), and each owed position must hold a continuation byte. -/
def validUtf8Aux : Nat → List Nat → Bool
  | 0, [] => true
  | 0, b :: rest =>
    if b < 128 then validUtf8Aux 0 rest
    else if b < 192 then false
    else if b < 224 then validUtf8Aux 1 rest
    else if b < 240 then validUtf8Aux 2 rest
    else if b < 248 then validUtf8Aux 3 rest
    else false
  | _ + 1, [] => false
  | k + 1, b :: rest => isContByte b && validUtf8Aux k rest

/-- Structural UTF-8 validity: the byte list decomposes into well-formed
scalar sequences (every lead byte is followed by its continuation bytes).
Every Rust `&str`'s byte sequence satisfies this. -/
def validUtf8 (l : List Nat) : Bool :=
  validUtf8Aux 0 l

/-- `str::is_char_boundary`: index 0 and the total length are boundaries;
an interior index is a boundary iff its byte is not a continuation byte;
past-the-end indices are not boundaries. -/
def charBoundary (data : List Nat) (i : Nat) : Bool :=
  decide (i = 0 ∨ i = data.length ∨ (i < data.length ∧ isContByte (data.getD i 0) = false))

/-- Whether the slice `&data[a..b]` is index-safe (no panic). -/
def sliceOk (data : List Nat) (a b : Nat) : Bool :=
  decide (a ≤ b) && charBoundary data a && charBoundary data b

/-- Panic predicate for `Tokenizer::escaped_character` called at cursor `i`:
it slices `&self.data[self.read..]`. -/
def escCharPanics (data : List Nat) (i : Nat) : Bool :=
  !charBoundary data i

/-- Panic predicate mirroring `scanLoop`: true iff some `str` slice taken by
the corresponding iteration of the `while` loop has a non-boundary index. -/
def scanPanics : Nat → Tokenizer → Nat → Bool
  | 0, t, start => !charBoundary t.data start
  | gas + 1, t, start =>
    if t.read < t.data.length then
      let b := t.data.getD t.read 0
      if t.level = 0 ∧ b = t.escape then
        !sliceOk t.data start t.read ||
          (if listSlice t.data start t.read = [] then
            escCharPanics t.data (t.read + 1)
          else false)
      else if t.level ≠ 0 ∧ b = 125 then
        if t.level - 1 = 0 then !sliceOk t.data start t.read
        else scanPanics gas { t with read := t.read + 1, level := t.level - 1 } start
      else if 2 < t.data.length - t.read ∧ b = 36 ∧ t.data.getD (t.read + 1) 0 = 123 then
        if t.level = 0 then
          !sliceOk t.data start t.read ||
            (if listSlice t.data start t.read = [] then
              scanPanics gas
                { t with level := (t.level + 1) % 256, read := t.read + 2 } (t.read + 2)
            else false)
        else
          scanPanics gas
            { t with flags := t.flags ||| INNER_TOKENS,
                     level := (t.level + 1) % 256, read := t.read + 2 } start
      else scanPanics gas { t with read := t.read + 1 } start
    else !charBoundary t.data start

/-- Panic predicate for one `Tokenizer::next` call. -/
def nextPanics (t : Tokenizer) : Bool :=
  if t.flags &&& ESCAPED ≠ 0 then escCharPanics t.data t.read
  else if t.data.length ≤ t.read then false
  else scanPanics (t.data.length - t.read) t t.read

/-- True iff no `next` call along a whole run of up to `fuel` advancement
steps panics. -/
def runPanicFree : Nat → Tokenizer → Bool
  | 0, _ => true
  | fuel + 1, t =>
    !nextPanics t &&
      (match t.next with
       | (none, _) => true
       | (some _, t') => runPanicFree fuel t')

example : (Tokenizer.new [97, 36, 123, 98, 125, 99]).tokens =
    [Token.Normal [97], Token.Key [98] false, Token.Normal [99]] := by decide

example : (Tokenizer.new [36, 123, 97, 36, 123]).tokens =
    [Token.Key [97, 36, 123] false] := by decide

example : (Tokenizer.new [36, 123]).tokens = [Token.Normal [36, 123]] := by decide

-- the char-boundary panic: escape byte 0xA9 inside the two-byte char 0xC3 0xA9
example : runPanicFree 4 ((Tokenizer.new [195, 169]).setEscape 169) = false := by decide

example : validUtf8 [195, 169] = true := by decide

example : ((Tokenizer.new [97, 35]).setEscape 35).tokens =
    [Token.Normal [97], Token.Escaped [92]] := by decide

example : (Tokenizer.new [92, 97]).tokens = [Token.Escaped [97]] := by decide

/-! ## Basic structural lemmas -/

theorem escapedCharacter_data (t : Tokenizer) : t.escapedCharacter.2.data = t.data := by
  unfold Tokenizer.escapedCharacter
  cases t.data.drop t.read <;> simp

theorem escapedCharacter_escape (t : Tokenizer) : t.escapedCharacter.2.escape = t.escape := by
  unfold Tokenizer.escapedCharacter
  cases t.data.drop t.read <;> simp

theorem escapedCharacter_flags (t : Tokenizer) : t.escapedCharacter.2.flags = t.flags := by
  unfold Tokenizer.escapedCharacter
  cases t.data.drop t.read <;> simp

theorem escapedCharacter_level (t : Tokenizer) : t.escapedCharacter.2.level = t.level := by
  unfold Tokenizer.escapedCharacter
  cases t.data.drop t.read <;> simp

theorem endPhase_data (t : Tokenizer) (start : Nat) : (t.endPhase start).2.data = t.data := by
  simp only [Tokenizer.endPhase]
  split_ifs <;> simp

theorem endPhase_escape (t : Tokenizer) (start : Nat) :
    (t.endPhase start).2.escape = t.escape := by
  simp only [Tokenizer.endPhase]
  split_ifs <;> simp

theorem scanLoop_data (gas : Nat) :
    ∀ t start, (Tokenizer.scanLoop gas t start).2.data = t.data := by
  induction gas with
  | zero => intro t start; exact endPhase_data t start
  | succ gas ih =>
    intro t start
    simp only [Tokenizer.scanLoop]
    split_ifs <;>
      first
        | exact endPhase_data t start
        | exact escapedCharacter_data _
        | rfl
        | exact ih _ _

theorem scanLoop_escape (gas : Nat) :
    ∀ t start, (Tokenizer.scanLoop gas t start).2.escape = t.escape := by
  induction gas with
  | zero => intro t start; exact endPhase_escape t start
  | succ gas ih =>
    intro t start
    simp only [Tokenizer.scanLoop]
    split_ifs <;>
      first
        | exact endPhase_escape t start
        | exact escapedCharacter_escape _
        | rfl
        | exact ih _ _

theorem next_data (t : Tokenizer) : t.next.2.data = t.data := by
  simp only [Tokenizer.next]
  split_ifs <;> first | exact escapedCharacter_data _ | rfl | exact scanLoop_data _ t t.read

theorem next_escape (t : Tokenizer) : t.next.2.escape = t.escape := by
  simp only [Tokenizer.next]
  split_ifs <;> first | exact escapedCharacter_escape _ | rfl | exact scanLoop_escape _ t t.read

theorem land_mask_inner_escaped (x : Nat) :
    (x &&& (INNER_TOKENS ^^^ 255)) &&& ESCAPED = x &&& ESCAPED := by
  show (x &&& 253) &&& 1 = x &&& 1
  rw [Nat.land_assoc]
  norm_num

theorem lor_inner_land_escaped (x : Nat) :
    (x ||| INNER_TOKENS) &&& ESCAPED = x &&& ESCAPED := by
  show (x ||| 2) &&& 1 = x &&& 1
  apply Nat.eq_of_testBit_eq
  intro i
  rcases i with _ | i
  · simp [Nat.testBit_land, Nat.testBit_lor, Nat.testBit_zero]
  · simp only [Nat.testBit_land]
    have h1 : Nat.testBit 1 (i + 1) = false := by
      simp [Nat.testBit_succ]
    rw [h1, Bool.and_false, Bool.and_false]

theorem escapedCharacter_fst (t : Tokenizer) : ∃ c, t.escapedCharacter.1 = Token.Escaped c := by
  unfold Tokenizer.escapedCharacter
  cases t.data.drop t.read <;> simp

/-! ## Depth after a `Key` token (claim C8) -/

theorem endPhase_key_state (t : Tokenizer) (start : Nat) (s : List Nat) (b : Bool)
    (t' : Tokenizer) (hf : t.flags &&& ESCAPED = 0)
    (h : t.endPhase start = (some (Token.Key s b), t')) :
    t'.data.length ≤ t'.read ∧ t'.flags &&& ESCAPED = 0 := by
  simp only [Tokenizer.endPhase] at h
  split_ifs at h with h1 h2
  · rw [Prod.mk.injEq] at h
    exact absurd h.1 (by simp)
  · rw [Prod.mk.injEq] at h
    rw [← h.2]
    refine ⟨le_refl _, ?_⟩
    rw [land_mask_inner_escaped, hf]
  · rw [Prod.mk.injEq] at h
    exact absurd h.1 (by simp)

theorem scanLoop_key_depth (gas : Nat) :
    ∀ t start s b t', t.flags &&& ESCAPED = 0 →
      Tokenizer.scanLoop gas t start = (some (Token.Key s b), t') →
      t'.level = 0 ∨ (t'.data.length ≤ t'.read ∧ t'.flags &&& ESCAPED = 0) := by
  induction gas with
  | zero =>
    intro t start s b t' hf h
    exact Or.inr (endPhase_key_state t start s b t' hf h)
  | succ gas ih =>
    intro t start s b t' hf h
    simp only [Tokenizer.scanLoop] at h
    split_ifs at h
    · -- escape byte with empty span: an Escaped token, not a Key
      obtain ⟨c, hc⟩ := escapedCharacter_fst ({ t with read := t.read + 1 } : Tokenizer)
      rw [Prod.mk.injEq, hc] at h
      simp at h
    · -- escape byte with nonempty span: a Normal token
      rw [Prod.mk.injEq] at h
      simp at h
    · -- close byte returning to depth 0
      rename_i c5
      rw [Prod.mk.injEq] at h
      left
      rw [← h.2]
      exact c5
    · -- nested close, depth stays positive
      refine ih _ _ _ _ _ ?_ h
      exact hf
    · -- literal before an open sequence: a Normal token
      rw [Prod.mk.injEq] at h
      simp at h
    · -- open sequence with empty span: the loop continues
      refine ih _ _ _ _ _ ?_ h
      exact hf
    · -- nested open sequence
      refine ih _ _ _ _ _ ?_ h
      show (t.flags ||| INNER_TOKENS) &&& ESCAPED = 0
      rw [lor_inner_land_escaped]
      exact hf
    · -- ordinary byte
      refine ih _ _ _ _ _ ?_ h
      exact hf
    · exact Or.inr (endPhase_key_state t start s b t' hf h)

/-- Claim C8: the first conjunct of the claim fails on the code.  A `Key`
token emitted for an unterminated placeholder at end of input leaves the
`level` field unchanged (and hence nonzero): on `"${a"` the single
advancement step emits `Key("a", false)` and leaves `level = 1`. -/
theorem claim8_cex :
    (Tokenizer.new [36, 123, 97]).next =
      (some (Token.Key [97] false),
        { data := [36, 123, 97], read := 3, flags := 0, level := 1, escape := 92 }) ∧
    ({ data := [36, 123, 97], read := 3, flags := 0, level := 1,
        escape := 92 } : Tokenizer).level ≠ 0 := by
  decide

/-- Claim C8, amended: after a step emitting a `Key` via the close byte the
depth is exactly 0; a `Key` emitted at end of input can leave depth
positive, but the residual state is never visible: the next advancement
returns no token. -/
theorem claim8_amended (t : Tokenizer) (s : List Nat) (b : Bool) (t' : Tokenizer)
    (h : t.next = (some (Token.Key s b), t')) :
    t'.level = 0 ∨ t'.next.1 = none := by
  rcases h2 : t.next with ⟨o, t2⟩
  rw [h2] at h
  rw [Prod.mk.injEq] at h
  simp only [Tokenizer.next] at h2
  split_ifs at h2 with hf hlen
  · obtain ⟨c, hc⟩ := escapedCharacter_fst ({ t with flags := t.flags ^^^ ESCAPED } : Tokenizer)
    rw [Prod.mk.injEq] at h2
    rw [← h2.1, hc] at h
    exact absurd h.1 (by simp)
  · rw [Prod.mk.injEq] at h2
    rw [← h2.1] at h
    exact absurd h.1 (by simp)
  · push_neg at hf
    rcases scanLoop_key_depth _ t t.read s b t' hf (by rw [h2, h.1, h.2]) with h3 | h3
    · exact Or.inl h3
    · right
      simp only [Tokenizer.next]
      rw [if_neg (by rw [h3.2]; simp), if_pos h3.1]

/-- Witness for claim C8's amended theorem at the input `"${a"`. -/
theorem claim8_wit :
    ({ data := [36, 123, 97], read := 3, flags := 0, level := 1,
        escape := 92 } : Tokenizer).level = 0 ∨
      ({ data := [36, 123, 97], read := 3, flags := 0, level := 1,
          escape := 92 } : Tokenizer).next.1 = none :=
  claim8_amended (Tokenizer.new [36, 123, 97]) [97] false _ (by decide)

/-! ## Claim C10: `is_empty` is inverted -/

/-- Claim C10: the code of `TokenizerExt::is_empty` is `self.len() != 0`,
the negation of what the accessor's name and the claim state: it returns
`false` on the empty pattern and `true` on a nonempty one. -/
theorem claim10_is_empty_bug :
    (Tokenizer.new []).isEmpty = false ∧ (Tokenizer.new []).len = 0 ∧
      (Tokenizer.new [97]).isEmpty = true ∧ (Tokenizer.new [97]).len = 1 := by
  decide

/-! ## Claim C6: the expansion driver -/

theorem expandAux_eq_expandTokens {ε : Type} (f : Resolver ε) :
    ∀ fuel t buf,
      Tokenizer.expandAux fuel t f buf = expandTokens f (Tokenizer.tokenizeAux fuel t).1 buf := by
  intro fuel
  induction fuel with
  | zero => intro t buf; rfl
  | succ fuel ih =>
    intro t buf
    simp only [Tokenizer.expandAux, Tokenizer.tokenizeAux]
    rcases h : t.next with ⟨o, t'⟩
    cases o with
    | none => rfl
    | some tok =>
      simp only [expandTokens]
      rcases f buf tok with e | ⟨buf', cont⟩
      · rfl
      · cases cont
        · rfl
        · exact ih t' buf'

/-- Claim C6: `expand` is the one-token-at-a-time fold of the resolver over
the emitted token stream into a single buffer; exhaustion and a resolver
`Ok(false)` return the accumulated buffer, and a resolver `Err(e)` is
returned immediately as the overall result, with no further token
processed (the tail of the token list is irrelevant) and no further
buffer writes. -/
theorem claim6_expand_drives_resolver {ε : Type} (f : Resolver ε) (t : Tokenizer) :
    t.expand f = expandTokens f t.tokens [] ∧
      (∀ buf, expandTokens f [] buf = Except.ok buf) ∧
      (∀ buf tok rest e, f buf tok = Except.error e →
        expandTokens f (tok :: rest) buf = Except.error e) ∧
      (∀ buf tok rest buf2, f buf tok = Except.ok (buf2, false) →
        expandTokens f (tok :: rest) buf = Except.ok buf2) := by
  refine ⟨expandAux_eq_expandTokens f _ t [], fun buf => rfl, ?_, ?_⟩
  · intro buf tok rest e h
    simp [expandTokens, h]
  · intro buf tok rest buf2 h
    simp [expandTokens, h]

/-- A concrete resolver used only to witness claim C6: appends text and
escaped characters, fails with error code 7 on any key. -/
def resolverKeyFails : Resolver Nat := fun buf tok =>
  match tok with
  | Token.Normal s => Except.ok (buf ++ s, true)
  | Token.Escaped c => Except.ok (buf ++ c, true)
  | Token.Key _ _ => Except.error 7

/-- Witness for claim C6 at the input `"a${b}"` with a resolver failing on
keys. -/
theorem claim6_wit :
    Tokenizer.expand (Tokenizer.new [97, 36, 123, 98, 125]) resolverKeyFails =
        expandTokens resolverKeyFails (Tokenizer.tokens (Tokenizer.new [97, 36, 123, 98, 125])) [] ∧
      expandTokens resolverKeyFails [Token.Key [98] false] [97] = Except.error 7 := by
  constructor
  · exact (claim6_expand_drives_resolver resolverKeyFails _).1
  · exact (claim6_expand_drives_resolver resolverKeyFails
      (Tokenizer.new [])).2.2.1 [97] (Token.Key [98] false) [] 7 rfl

/-! ## Counterexamples for claims C1 - C5 -/

/-- True iff a token is a `Key` token. -/
def isKeyTok : Token → Bool
  | Token.Key _ _ => true
  | _ => false

/-- Claim C1 counterexample: on `"${a${"` the tokenizer emits
`Key("a${", false)` although the key's raw text contains the complete
open sequence `${` (at index 1), because the open detector requires
`data.len() - read > 2` and the sequence sits in the pattern's final two
bytes.  This falsifies the claimed iff. -/
theorem claim1_cex :
    (Tokenizer.new [36, 123, 97, 36, 123]).tokens = [Token.Key [97, 36, 123] false] ∧
      (1 + 1 < ([97, 36, 123] : List Nat).length ∧
        ([97, 36, 123] : List Nat).getD 1 0 = 36 ∧
        ([97, 36, 123] : List Nat).getD 2 0 = 123) := by
  decide

/-- Claim C2 counterexample: with the pattern `"é"` (bytes `C3 A9`, valid
UTF-8) and the escape byte overridden to `A9` -- a byte inside the
multi-byte code point -- the very first advancement slices the pattern at
byte offset 1, which is not a character boundary, so the Rust code
panics. -/
theorem claim2_cex :
    validUtf8 [195, 169] = true ∧
      runPanicFree 4 ((Tokenizer.new [195, 169]).setEscape 169) = false := by
  decide

/-- Claim C3 counterexample: with escape byte `'#'` (35) and pattern
`"a#"`, the final token is `Escaped('\\')` -- the hardcoded backslash of
`escaped_character`'s end-of-input arm -- not `Escaped('#')` as the claim
requires. -/
theorem claim3_cex :
    ((Tokenizer.new [97, 35]).setEscape 35).tokens =
        [Token.Normal [97], Token.Escaped [92]] ∧
      ([Token.Normal [97], Token.Escaped [92]] : List Token).getLast? =
        some (Token.Escaped [92]) ∧
      Token.Escaped [92] ≠ Token.Escaped [35] := by
  decide

/-- The reconstruction rule exactly as the claim words it (`Literal`
contributes its text, `Escaped` its one decoded character, `Key` its open
and close delimiters plus raw text).  This definition follows the claim's
words, to be compared with the code. -/
def specTokenText : Token → List Nat
  | Token.Normal s => s
  | Token.Escaped c => c
  | Token.Key s _ => 36 :: 123 :: (s ++ [125])

/-- Claim C4 counterexample: on `"\\a"` the emitted tokens are
`[Escaped('a')]`, and the claim's reconstruction rule yields `"a"`,
losing the escape byte: the original pattern is not reconstructed. -/
theorem claim4_cex :
    (Tokenizer.new [92, 97]).tokens = [Token.Escaped [97]] ∧
      ((Tokenizer.new [92, 97]).tokens.map specTokenText).flatten ≠ [92, 97] := by
  decide

/-- Claim C5 counterexample: when `${` occupies the last two bytes of the
pattern (`"${"`), no placeholder begins: the two bytes are reported inside
a `Normal` (literal) token and no `Key` token is emitted, because the open
detector requires `data.len() - read > 2`. -/
theorem claim5_cex :
    (Tokenizer.new [36, 123]).tokens = [Token.Normal [36, 123]] ∧
      ((Tokenizer.new [36, 123]).tokens.any isKeyTok) = false := by
  decide

/-! ## Walking over trigger-free literal bytes -/

theorem scanLoop_walk : ∀ (d gas : Nat) (t : Tokenizer) (start : Nat),
    t.level = 0 →
    (∀ p, t.read ≤ p → p < t.read + d → t.data.getD p 0 ≠ t.escape ∧ t.data.getD p 0 ≠ 36) →
    t.read + d ≤ t.data.length →
    Tokenizer.scanLoop (gas + d) t start =
      Tokenizer.scanLoop gas { t with read := t.read + d } start := by
  intro d
  induction d with
  | zero => intro gas t start _ _ _; rfl
  | succ d ih =>
    intro gas t start hlv hnt hle
    have hb := hnt t.read (le_refl _) (by omega)
    rw [Nat.add_succ]
    simp only [Tokenizer.scanLoop]
    rw [if_pos (show t.read < t.data.length by omega)]
    rw [if_neg (show ¬(t.level = 0 ∧ t.data.getD t.read 0 = t.escape) from
      fun hc => hb.1 hc.2)]
    rw [if_neg (show ¬(t.level ≠ 0 ∧ t.data.getD t.read 0 = 125) from
      fun hc => hc.1 hlv)]
    rw [if_neg (show ¬(2 < t.data.length - t.read ∧ t.data.getD t.read 0 = 36 ∧
        t.data.getD (t.read + 1) 0 = 123) from fun hc => hb.2 hc.2.1)]
    have hstep := ih gas { t with read := t.read + 1 } start hlv
      (by intro p h1 h2
          replace h1 : t.read + 1 ≤ p := h1
          replace h2 : p < t.read + 1 + d := h2
          exact hnt p (by omega) (by omega))
      (show t.read + 1 + d ≤ t.data.length by omega)
    rw [hstep]
    dsimp only
    have harith : t.read + 1 + d = t.read + (d + 1) := by omega
    rw [harith]

theorem next_exhausted (t : Tokenizer) (hf : t.flags &&& ESCAPED = 0)
    (hr : t.data.length ≤ t.read) : t.next = (none, t) := by
  simp only [Tokenizer.next]
  rw [if_neg (by rw [hf]; exact fun h => h rfl), if_pos hr]

theorem next_walk (t : Tokenizer) (q : Nat) (hf : t.flags &&& ESCAPED = 0)
    (hl : t.level = 0) (hq : t.read ≤ q) (hqlen : q ≤ t.data.length)
    (hread : t.read < t.data.length)
    (hnt : ∀ p, t.read ≤ p → p < q → t.data.getD p 0 ≠ t.escape ∧ t.data.getD p 0 ≠ 36) :
    t.next = Tokenizer.scanLoop (t.data.length - q) { t with read := q } t.read := by
  simp only [Tokenizer.next]
  rw [if_neg (by rw [hf]; exact fun h => h rfl), if_neg (by omega)]
  have hsplit : t.data.length - t.read = (t.data.length - q) + (q - t.read) := by omega
  rw [hsplit]
  have hw := scanLoop_walk (q - t.read) (t.data.length - q) t t.read hl
    (by intro p h1 h2; exact hnt p h1 (by omega)) (by omega)
  rw [hw]
  have harith : t.read + (q - t.read) = q := by omega
  rw [harith]

theorem tokenizeAux_succ_some (fuel : Nat) (t : Tokenizer) (tok : Token) (t' : Tokenizer)
    (h : t.next = (some tok, t')) :
    Tokenizer.tokenizeAux (fuel + 1) t =
      (tok :: (Tokenizer.tokenizeAux fuel t').1, (Tokenizer.tokenizeAux fuel t').2) := by
  simp only [Tokenizer.tokenizeAux, h]

theorem tokenizeAux_succ_none (fuel : Nat) (t : Tokenizer) (t' : Tokenizer)
    (h : t.next = (none, t')) :
    Tokenizer.tokenizeAux (fuel + 1) t = ([], t') := by
  simp only [Tokenizer.tokenizeAux, h]

/-! ## Claim C7: patterns without escape byte or dollar sign -/

theorem getD_ne_of_not_mem (data : List Nat) (x : Nat) (hx : x ∉ data) :
    ∀ p, p < data.length → data.getD p 0 ≠ x := by
  intro p hp hcontra
  apply hx
  rw [← hcontra, List.getD_eq_getElem data 0 hp]
  exact List.getElem_mem hp

/-- Claim C7: a pattern containing neither the configured escape byte nor
`'$'` (36) tokenizes to a single `Normal` token carrying the whole pattern,
or to no tokens at all when the pattern is empty. -/
theorem claim7_pure_literal (data : List Nat) (escape : Nat)
    (h36 : 36 ∉ data) (hesc : escape ∉ data) :
    ((Tokenizer.new data).setEscape escape).tokens =
      if data = [] then [] else [Token.Normal data] := by
  by_cases hd : data = []
  · subst hd
    rw [if_pos rfl]
    show (Tokenizer.tokenizeAux (([] : List Nat).length + 2)
      { data := [], read := 0, flags := 0, level := 0, escape := escape }).1 = []
    rw [tokenizeAux_succ_none _ _ _ (next_exhausted _ (by norm_num) (by simp))]
  · rw [if_neg hd]
    have hlen : 0 < data.length := List.length_pos.mpr hd
    show Tokenizer.tokens
      { data := data, read := 0, flags := 0, level := 0, escape := escape } = _
    have h1 : Tokenizer.next
        { data := data, read := 0, flags := 0, level := 0, escape := escape } =
        (some (Token.Normal data),
          { data := data, read := data.length, flags := 0, level := 0, escape := escape }) := by
      rw [next_walk _ data.length (by norm_num) rfl (Nat.zero_le _) (le_refl _) hlen
        (by intro p h1 h2
            replace h2 : p < data.length := h2
            exact ⟨getD_ne_of_not_mem data escape hesc p h2,
              getD_ne_of_not_mem data 36 h36 p h2⟩)]
      rw [Nat.sub_self]
      show Tokenizer.endPhase _ 0 = _
      simp only [Tokenizer.endPhase]
      rw [if_neg (by simpa using hd), if_neg (by simp)]
      rw [List.drop_zero]
    have h2 : Tokenizer.next
        { data := data, read := data.length, flags := 0, level := 0, escape := escape } =
        (none, { data := data, read := data.length, flags := 0, level := 0, escape := escape }) :=
      next_exhausted _ (by norm_num) (le_refl _)
    unfold Tokenizer.tokens
    rw [tokenizeAux_succ_some _ _ _ _ h1, tokenizeAux_succ_none _ _ _ h2]

/-- Witness for claim C7 on the pattern `"ab}"` with the default escape. -/
theorem claim7_wit :
    ((Tokenizer.new [97, 98, 125]).setEscape 92).tokens =
      if ([97, 98, 125] : List Nat) = [] then [] else [Token.Normal [97, 98, 125]] :=
  claim7_pure_literal [97, 98, 125] 92 (by decide) (by decide)

/-! ## Claim C3: trailing escape -/

/-- Claim C3, amended: a trailing escape byte at depth 0 yields a final
token `Escaped('\\')` -- the backslash hardcoded in `escaped_character`'s
end-of-input arm -- regardless of the configured escape byte (stated for
patterns whose preceding bytes contain no escape byte and no `'$'`, so the
trailing byte is reached at depth 0). -/
theorem claim3_amended (pre : List Nat) (escape : Nat)
    (hesc : escape ∉ pre) (h36 : 36 ∉ pre) :
    ((Tokenizer.new (pre ++ [escape])).setEscape escape).tokens =
      (if pre = [] then [] else [Token.Normal pre]) ++ [Token.Escaped [92]] := by
  have hlen : (pre ++ [escape]).length = pre.length + 1 := by simp
  have hb : ∀ p, p < pre.length →
      (pre ++ [escape]).getD p 0 ≠ escape ∧ (pre ++ [escape]).getD p 0 ≠ 36 := by
    intro p hp
    rw [List.getD_append _ _ _ _ hp]
    exact ⟨getD_ne_of_not_mem pre escape hesc p hp, getD_ne_of_not_mem pre 36 h36 p hp⟩
  have hbe : (pre ++ [escape]).getD pre.length 0 = escape := by
    rw [List.getD_append_right _ _ _ _ (le_refl _), Nat.sub_self]
    rfl
  have htoken : listSlice (pre ++ [escape]) 0 pre.length = pre := by
    unfold listSlice
    rw [List.take_left, List.drop_zero]
  have hdropend : (pre ++ [escape]).drop (pre.length + 1) = [] := by
    rw [← hlen, List.drop_length]
  show Tokenizer.tokens
    { data := pre ++ [escape], read := 0, flags := 0, level := 0, escape := escape } = _
  have h1 : Tokenizer.next
      { data := pre ++ [escape], read := 0, flags := 0, level := 0, escape := escape } =
      Tokenizer.scanLoop 1
        { data := pre ++ [escape], read := pre.length, flags := 0, level := 0,
          escape := escape } 0 := by
    by_cases hpre : pre = []
    · subst hpre
      simp only [Tokenizer.next]
      rw [if_neg (by norm_num), if_neg (by simp)]
      rfl
    · rw [next_walk _ pre.length (by norm_num) rfl (Nat.zero_le _)
        (show pre.length ≤ (pre ++ [escape]).length by rw [hlen]; omega)
        (show 0 < (pre ++ [escape]).length by rw [hlen]; omega)
        (by intro p hp1 hp2
            replace hp2 : p < pre.length := hp2
            exact hb p hp2)]
      rw [hlen, Nat.add_sub_cancel_left]
  rw [Tokenizer.tokens, hlen]
  have hstep : Tokenizer.scanLoop 1
      { data := pre ++ [escape], read := pre.length, flags := 0, level := 0,
        escape := escape } 0 =
      if pre = [] then
        (some (Token.Escaped [92]),
          { data := pre ++ [escape], read := pre.length + 1, flags := 0, level := 0,
            escape := escape })
      else
        (some (Token.Normal pre),
          { data := pre ++ [escape], read := pre.length + 1, flags := 1, level := 0,
            escape := escape }) := by
    rw [Tokenizer.scanLoop]
    dsimp only
    rw [if_pos (show pre.length < (pre ++ [escape]).length by rw [hlen]; omega)]
    rw [if_pos (show (0 : Nat) = 0 ∧ (pre ++ [escape]).getD pre.length 0 = escape from
      ⟨rfl, hbe⟩)]
    rw [htoken]
    by_cases hpre : pre = []
    · rw [if_pos hpre, if_pos hpre]
      subst hpre
      show (some (Tokenizer.escapedCharacter _).1, (Tokenizer.escapedCharacter _).2) = _
      unfold Tokenizer.escapedCharacter
      rw [show (([] : List Nat) ++ [escape]).drop (([] : List Nat).length + 1) = []
        from hdropend]
    · rw [if_neg hpre, if_neg hpre]
      norm_num [ESCAPED]
  rw [hstep] at h1
  by_cases hpre : pre = []
  · rw [if_pos hpre] at h1
    rw [if_pos hpre]
    rw [tokenizeAux_succ_some _ _ _ _ h1]
    rw [tokenizeAux_succ_none _ _ _ (next_exhausted _ (by norm_num) (by rw [hlen]))]
    rfl
  · rw [if_neg hpre] at h1
    rw [if_neg hpre]
    rw [tokenizeAux_succ_some _ _ _ _ h1]
    have h2 : Tokenizer.next
        { data := pre ++ [escape], read := pre.length + 1, flags := 1, level := 0,
          escape := escape } =
        (some (Token.Escaped [92]),
          { data := pre ++ [escape], read := pre.length + 1, flags := 0, level := 0,
            escape := escape }) := by
      simp only [Tokenizer.next]
      rw [if_pos (by decide)]
      show (some (Tokenizer.escapedCharacter _).1, (Tokenizer.escapedCharacter _).2) = _
      unfold Tokenizer.escapedCharacter
      rw [show ((pre ++ [escape]).drop (pre.length + 1)) = [] from hdropend]
      norm_num [ESCAPED]
    rw [tokenizeAux_succ_some _ _ _ _ h2]
    rw [tokenizeAux_succ_none _ _ _ (next_exhausted _ (by norm_num) (by rw [hlen]))]
    rfl

/-- Witness for claim C3's amended theorem: escape `'#'` (35), pattern
`"b#"`. -/
theorem claim3_wit :
    ((Tokenizer.new ([98] ++ [35])).setEscape 35).tokens =
      (if ([98] : List Nat) = [] then [] else [Token.Normal [98]]) ++ [Token.Escaped [92]] :=
  claim3_amended [98] 35 (by decide) (by decide)

/-! ## Characterization of key scanning (depth above zero)

While `level > 0` the scanner detects a nested open sequence at position `p`
exactly when the two bytes `${` sit at `p` and the `data.len() - read > 2`
gate holds, i.e. at least one byte follows the `{`.  `gatedOpenAt` captures
one such detectable occurrence.
-/

/-- A `${` occurrence at `p` that the scanner's gated check can detect:
both bytes present and at least one byte after them. -/
def gatedOpenAt (data : List Nat) (p : Nat) : Prop :=
  data.getD p 0 = 36 ∧ data.getD (p + 1) 0 = 123 ∧ p + 3 ≤ data.length

theorem scanKeyEnd (t : Tokenizer) (a : Nat) (hlvl : 1 ≤ t.level)
    (ha : a < t.data.length)
    (hfl : t.flags = 0 ∨ t.flags = 2)
    (hiff : t.flags = 2 ↔ ∃ p, a ≤ p ∧ p + 2 ≤ t.read ∧ gatedOpenAt t.data p)
    (hr : t.data.length ≤ t.read) :
    ∃ bk, t.endPhase a =
      (some (Token.Key (t.data.drop a) bk),
        { data := t.data, read := t.data.length, flags := 0, level := t.level,
          escape := t.escape }) ∧
      (bk = true ↔ ∃ p, a ≤ p ∧ gatedOpenAt t.data p) := by
  refine ⟨decide (t.flags &&& INNER_TOKENS ≠ 0), ?_, ?_⟩
  · simp only [Tokenizer.endPhase]
    rw [if_neg (by
      intro hcon
      rw [List.drop_eq_nil_iff] at hcon
      omega)]
    rw [if_pos (show t.level ≠ 0 by omega)]
    rcases hfl with hfl | hfl <;> rw [hfl] <;> rfl
  · rcases hfl with hfl | hfl <;> rw [hfl]
    · rw [show (decide ((0 : Nat) &&& INNER_TOKENS ≠ 0)) = false from by decide]
      simp only [Bool.false_eq_true, false_iff]
      rintro ⟨p, hap, hg⟩
      have hple : p + 2 ≤ t.read := by
        obtain ⟨hg1, hg2, hg3⟩ := hg
        omega
      have h02 : t.flags = 2 := hiff.mpr ⟨p, hap, hple, hg⟩
      rw [hfl] at h02
      omega
    · rw [show (decide ((2 : Nat) &&& INNER_TOKENS ≠ 0)) = true from by decide]
      simp only [true_iff]
      obtain ⟨p, hap, _, hg⟩ := hiff.mp hfl
      exact ⟨p, hap, hg⟩

theorem scanKey (gas : Nat) :
    ∀ (t : Tokenizer) (a : Nat),
      t.data.length ≤ 511 →
      1 ≤ t.level → 2 * t.level ≤ t.read →
      a ≤ t.read → t.read ≤ t.data.length → a < t.data.length →
      t.data.length - t.read ≤ gas →
      (t.flags = 0 ∨ t.flags = 2) →
      (t.flags = 2 ↔ ∃ p, a ≤ p ∧ p + 2 ≤ t.read ∧ gatedOpenAt t.data p) →
      (∀ p, p + 1 = t.read → a ≤ p → ¬ gatedOpenAt t.data p) →
      (∃ e bk, t.read ≤ e ∧ e < t.data.length ∧ t.data.getD e 0 = 125 ∧
        Tokenizer.scanLoop gas t a =
          (some (Token.Key (listSlice t.data a e) bk),
            { data := t.data, read := e + 1, flags := 0, level := 0,
              escape := t.escape }) ∧
        (bk = true ↔ ∃ p, a ≤ p ∧ p + 2 ≤ e ∧ gatedOpenAt t.data p))
      ∨ (∃ lv bk, 1 ≤ lv ∧
          Tokenizer.scanLoop gas t a =
            (some (Token.Key (t.data.drop a) bk),
              { data := t.data, read := t.data.length, flags := 0, level := lv,
                escape := t.escape }) ∧
          (bk = true ↔ ∃ p, a ≤ p ∧ gatedOpenAt t.data p)) := by
  induction gas with
  | zero =>
    intro t a h511 hlvl hlvr haR hrlen halen hgas hfl hiff hns
    right
    obtain ⟨bk, hEnd, hbk⟩ := scanKeyEnd t a hlvl halen hfl hiff (by omega)
    exact ⟨t.level, bk, hlvl, by rw [Tokenizer.scanLoop, hEnd], hbk⟩
  | succ gas ih =>
    intro t a h511 hlvl hlvr haR hrlen halen hgas hfl hiff hns
    by_cases hrl : t.read < t.data.length
    case neg =>
      right
      obtain ⟨bk, hEnd, hbk⟩ := scanKeyEnd t a hlvl halen hfl hiff (by omega)
      refine ⟨t.level, bk, hlvl, ?_, hbk⟩
      rw [Tokenizer.scanLoop]
      rw [if_neg hrl]
      exact hEnd
    case pos =>
      rw [Tokenizer.scanLoop]
      rw [if_pos hrl]
      dsimp only
      rw [if_neg (show ¬(t.level = 0 ∧ t.data.getD t.read 0 = t.escape) from
        fun hc => by omega)]
      by_cases hb125 : t.data.getD t.read 0 = 125
      case pos =>
        -- close byte
        rw [if_pos (show t.level ≠ 0 ∧ t.data.getD t.read 0 = 125 from
          ⟨by omega, hb125⟩)]
        by_cases hl1 : t.level - 1 = 0
        case pos =>
          rw [if_pos hl1]
          left
          refine ⟨t.read, decide (t.flags &&& INNER_TOKENS ≠ 0), le_refl _, hrl, hb125,
            ?_, ?_⟩
          · rcases hfl with hfl | hfl <;> (rw [hfl]; simp [hl1]; try decide)
          · rcases hfl with hfl | hfl <;> rw [hfl]
            · rw [show (decide ((0 : Nat) &&& INNER_TOKENS ≠ 0)) = false from by decide]
              simp only [Bool.false_eq_true, false_iff]
              intro hex
              have h02 : t.flags = 2 := hiff.mpr hex
              rw [hfl] at h02
              omega
            · rw [show (decide ((2 : Nat) &&& INNER_TOKENS ≠ 0)) = true from by decide]
              simp only [true_iff]
              exact hiff.mp hfl
        case neg =>
          rw [if_neg hl1]
          have hiff1 : t.flags = 2 ↔
              ∃ p, a ≤ p ∧ p + 2 ≤ t.read + 1 ∧ gatedOpenAt t.data p := by
            constructor
            · intro h2
              obtain ⟨p, hap, hpr, hg⟩ := hiff.mp h2
              exact ⟨p, hap, by omega, hg⟩
            · rintro ⟨p, hap, hpr, hg⟩
              apply hiff.mpr
              refine ⟨p, hap, ?_, hg⟩
              by_cases hc : p + 2 ≤ t.read
              · exact hc
              · exfalso
                obtain ⟨hg1, hg2, hg3⟩ := hg
                have hp1 : p + 1 = t.read := by omega
                rw [hp1] at hg2
                rw [hb125] at hg2
                omega
          have hns1 : ∀ p, p + 1 = t.read + 1 → a ≤ p → ¬ gatedOpenAt t.data p := by
            intro p hp1 hap hg
            obtain ⟨hg1, hg2, hg3⟩ := hg
            have hpread : p = t.read := by omega
            rw [hpread] at hg1
            rw [hb125] at hg1
            omega
          have hA1 : 1 ≤ t.level - 1 := by omega
          have hB1 : 2 * (t.level - 1) ≤ t.read + 1 := by omega
          have hC1 : a ≤ t.read + 1 := by omega
          have hD1 : t.read + 1 ≤ t.data.length := by omega
          have hE1 : t.data.length - (t.read + 1) ≤ gas := by omega
          have hres := ih { t with read := t.read + 1, level := t.level - 1 } a h511
            hA1 hB1 hC1 hD1 halen hE1 hfl hiff1 hns1
          rcases hres with ⟨e, bk, he1, he2, he3, heq, hbk⟩ | ⟨lv, bk, hlv, heq, hbk⟩
          · have he1a : t.read + 1 ≤ e := he1
            have he1b : t.read ≤ e := by omega
            exact Or.inl ⟨e, bk, he1b, he2, he3, heq, hbk⟩
          · exact Or.inr ⟨lv, bk, hlv, heq, hbk⟩
      case neg =>
        rw [if_neg (show ¬(t.level ≠ 0 ∧ t.data.getD t.read 0 = 125) from
          fun hc => hb125 hc.2)]
        by_cases hopen : 2 < t.data.length - t.read ∧ t.data.getD t.read 0 = 36 ∧
          t.data.getD (t.read + 1) 0 = 123
        case pos =>
          rw [if_pos hopen]
          rw [if_neg (show ¬ t.level = 0 from by omega)]
          have hmod : (t.level + 1) % 256 = t.level + 1 := Nat.mod_eq_of_lt (by omega)
          have hfl2 : t.flags ||| INNER_TOKENS = 2 := by
            rcases hfl with hfl | hfl <;> rw [hfl] <;> decide
          have hiff2 : t.flags ||| INNER_TOKENS = 2 ↔
              ∃ p, a ≤ p ∧ p + 2 ≤ t.read + 2 ∧ gatedOpenAt t.data p := by
            constructor
            · intro _
              exact ⟨t.read, haR, by omega, hopen.2.1, hopen.2.2, by omega⟩
            · intro _
              exact hfl2
          have hns2 : ∀ p, p + 1 = t.read + 2 → a ≤ p → ¬ gatedOpenAt t.data p := by
            intro p hp1 hap hg
            obtain ⟨hg1, hg2, hg3⟩ := hg
            have hpread : p = t.read + 1 := by omega
            rw [hpread] at hg1
            rw [hopen.2.2] at hg1
            omega
          have hA2 : 1 ≤ (t.level + 1) % 256 := by rw [hmod]; omega
          have hB2 : 2 * ((t.level + 1) % 256) ≤ t.read + 2 := by rw [hmod]; omega
          have hC2 : a ≤ t.read + 2 := by omega
          have hD2 : t.read + 2 ≤ t.data.length := by omega
          have hE2 : t.data.length - (t.read + 2) ≤ gas := by omega
          have hres := ih
            { t with flags := t.flags ||| INNER_TOKENS,
                     level := (t.level + 1) % 256, read := t.read + 2 } a h511
            hA2 hB2 hC2 hD2 halen hE2 (Or.inr hfl2) hiff2 hns2
          rcases hres with ⟨e, bk, he1, he2, he3, heq, hbk⟩ | ⟨lv, bk, hlv, heq, hbk⟩
          · have he1a : t.read + 2 ≤ e := he1
            have he1b : t.read ≤ e := by omega
            exact Or.inl ⟨e, bk, he1b, he2, he3, heq, hbk⟩
          · exact Or.inr ⟨lv, bk, hlv, heq, hbk⟩
        case neg =>
          rw [if_neg hopen]
          have hiff3 : t.flags = 2 ↔
              ∃ p, a ≤ p ∧ p + 2 ≤ t.read + 1 ∧ gatedOpenAt t.data p := by
            constructor
            · intro h2
              obtain ⟨p, hap, hpr, hg⟩ := hiff.mp h2
              exact ⟨p, hap, by omega, hg⟩
            · rintro ⟨p, hap, hpr, hg⟩
              apply hiff.mpr
              refine ⟨p, hap, ?_, hg⟩
              by_cases hc : p + 2 ≤ t.read
              · exact hc
              · exact absurd hg (hns p (by omega) hap)
          have hns3 : ∀ p, p + 1 = t.read + 1 → a ≤ p → ¬ gatedOpenAt t.data p := by
            intro p hp1 hap hg
            have hpread : p = t.read := by omega
            rw [hpread] at hg
            obtain ⟨hg1, hg2, hg3⟩ := hg
            exact hopen ⟨by omega, hg1, hg2⟩
          have hB3 : 2 * t.level ≤ t.read + 1 := by omega
          have hC3 : a ≤ t.read + 1 := by omega
          have hD3 : t.read + 1 ≤ t.data.length := by omega
          have hE3 : t.data.length - (t.read + 1) ≤ gas := by
            clear hiff3 hns3 hiff hns hfl
            omega
          have hres := ih { t with read := t.read + 1 } a h511 hlvl
            hB3 hC3 hD3 halen hE3 hfl hiff3 hns3
          rcases hres with ⟨e, bk, he1, he2, he3, heq, hbk⟩ | ⟨lv, bk, hlv, heq, hbk⟩
          · have he1a : t.read + 1 ≤ e := he1
            have he1b : t.read ≤ e := by omega
            exact Or.inl ⟨e, bk, he1b, he2, he3, heq, hbk⟩
          · exact Or.inr ⟨lv, bk, hlv, heq, hbk⟩

/-! ## Characterization of scanning at depth zero -/

theorem scanLit (gas : Nat) :
    ∀ (t : Tokenizer) (start : Nat),
      t.data.length ≤ 511 →
      t.level = 0 → t.flags = 0 →
      start ≤ t.read → t.read ≤ t.data.length →
      t.data.length - t.read ≤ gas →
      -- A: nothing remains
      (Tokenizer.scanLoop gas t start =
          (none, (⟨t.data, t.data.length, 0, 0, t.escape⟩ : Tokenizer)) ∧
            t.data.length ≤ start)
      -- B: final literal up to end of input
      ∨ (Tokenizer.scanLoop gas t start =
          (some (Token.Normal (t.data.drop start)),
            (⟨t.data, t.data.length, 0, 0, t.escape⟩ : Tokenizer)) ∧
            start < t.data.length)
      -- C: literal before an escape byte, escape armed
      ∨ (∃ e, t.read ≤ e ∧ e < t.data.length ∧ t.data.getD e 0 = t.escape ∧ start < e ∧
          Tokenizer.scanLoop gas t start =
            (some (Token.Normal (listSlice t.data start e)),
              (⟨t.data, e + 1, 1, 0, t.escape⟩ : Tokenizer)))
      -- D: escape byte with empty span, escaped character emitted at once
      ∨ (t.data.getD t.read 0 = t.escape ∧ start = t.read ∧
          Tokenizer.scanLoop gas t start =
            (some (Tokenizer.escapedCharacter
              ⟨t.data, t.read + 1, 0, 0, t.escape⟩).1,
             (Tokenizer.escapedCharacter ⟨t.data, t.read + 1, 0, 0, t.escape⟩).2))
      -- E: literal before an open sequence, placeholder begun
      ∨ (∃ e, t.read ≤ e ∧ e + 3 ≤ t.data.length ∧ t.data.getD e 0 = 36 ∧
          t.data.getD (e + 1) 0 = 123 ∧ start < e ∧
          Tokenizer.scanLoop gas t start =
            (some (Token.Normal (listSlice t.data start e)),
              (⟨t.data, e + 2, 0, 1, t.escape⟩ : Tokenizer)))
      -- F1: open sequence with empty span, key closed by a close byte
      ∨ (∃ e2 bk, start + 2 ≤ e2 ∧ e2 < t.data.length ∧ t.data.getD e2 0 = 125 ∧
          start = t.read ∧ start + 3 ≤ t.data.length ∧ t.data.getD start 0 = 36 ∧
          t.data.getD (start + 1) 0 = 123 ∧
          Tokenizer.scanLoop gas t start =
            (some (Token.Key (listSlice t.data (start + 2) e2) bk),
              (⟨t.data, e2 + 1, 0, 0, t.escape⟩ : Tokenizer)) ∧
          (bk = true ↔ ∃ p, start + 2 ≤ p ∧ p + 2 ≤ e2 ∧ gatedOpenAt t.data p))
      -- F2: open sequence with empty span, key unterminated at end of input
      ∨ (∃ lv bk, 1 ≤ lv ∧
          start = t.read ∧ start + 3 ≤ t.data.length ∧ t.data.getD start 0 = 36 ∧
          t.data.getD (start + 1) 0 = 123 ∧
          Tokenizer.scanLoop gas t start =
            (some (Token.Key (t.data.drop (start + 2)) bk),
              (⟨t.data, t.data.length, 0, lv, t.escape⟩ : Tokenizer)) ∧
          (bk = true ↔ ∃ p, start + 2 ≤ p ∧ gatedOpenAt t.data p)) := by
  induction gas with
  | zero =>
    intro t start h511 hlv0 hfl0 hsr hrlen hgas
    rw [Tokenizer.scanLoop]
    simp only [Tokenizer.endPhase]
    by_cases hrem : t.data.drop start = []
    · left
      rw [if_pos hrem]
      rw [List.drop_eq_nil_iff] at hrem
      exact ⟨by rw [Prod.mk.injEq, Tokenizer.mk.injEq]; exact ⟨rfl, ⟨rfl, rfl, hfl0, hlv0, rfl⟩⟩, hrem⟩
    · right; left
      rw [if_neg hrem, if_neg (by rw [hlv0]; exact fun hc => hc rfl)]
      have hstart : start < t.data.length := by
        by_contra hcon
        rw [List.drop_eq_nil_iff] at hrem
        omega
      exact ⟨by rw [Prod.mk.injEq, Tokenizer.mk.injEq]; exact ⟨rfl, ⟨rfl, rfl, hfl0, hlv0, rfl⟩⟩, hstart⟩
  | succ gas ih =>
    intro t start h511 hlv0 hfl0 hsr hrlen hgas
    by_cases hrl : t.read < t.data.length
    case neg =>
      rw [Tokenizer.scanLoop, if_neg hrl]
      simp only [Tokenizer.endPhase]
      by_cases hrem : t.data.drop start = []
      · left
        rw [if_pos hrem]
        rw [List.drop_eq_nil_iff] at hrem
        exact ⟨by rw [Prod.mk.injEq, Tokenizer.mk.injEq]; exact ⟨rfl, ⟨rfl, rfl, hfl0, hlv0, rfl⟩⟩, hrem⟩
      · right; left
        rw [if_neg hrem, if_neg (by rw [hlv0]; exact fun hc => hc rfl)]
        have hstart : start < t.data.length := by
          by_contra hcon
          rw [List.drop_eq_nil_iff] at hrem
          omega
        exact ⟨by rw [Prod.mk.injEq, Tokenizer.mk.injEq]; exact ⟨rfl, ⟨rfl, rfl, hfl0, hlv0, rfl⟩⟩, hstart⟩
    case pos =>
      rw [Tokenizer.scanLoop, if_pos hrl]
      dsimp only
      by_cases hbe : t.data.getD t.read 0 = t.escape
      case pos =>
        rw [if_pos (show t.level = 0 ∧ t.data.getD t.read 0 = t.escape from ⟨hlv0, hbe⟩)]
        by_cases htok : listSlice t.data start t.read = []
        case pos =>
          rw [if_pos htok]
          right; right; right; left
          have hstart : start = t.read := by
            unfold listSlice at htok
            rw [List.drop_eq_nil_iff, List.length_take] at htok
            omega
          refine ⟨hbe, hstart, ?_⟩
          have hstate : ({ t with read := t.read + 1 } : Tokenizer) =
              ⟨t.data, t.read + 1, 0, 0, t.escape⟩ := by
            rw [Tokenizer.mk.injEq]
            exact ⟨rfl, rfl, hfl0, hlv0, rfl⟩
          rw [hstate]
        case neg =>
          rw [if_neg htok]
          right; right; left
          refine ⟨t.read, le_refl _, hrl, hbe, ?_, ?_⟩
          · unfold listSlice at htok
            by_contra hcon
            apply htok
            rw [List.drop_eq_nil_iff, List.length_take]
            omega
          · rw [Prod.mk.injEq, Tokenizer.mk.injEq]
            refine ⟨rfl, rfl, rfl, ?_, hlv0, rfl⟩
            rw [hfl0]
            decide
      case neg =>
        rw [if_neg (fun hc => hbe hc.2)]
        rw [if_neg (show ¬(t.level ≠ 0 ∧ t.data.getD t.read 0 = 125) from
          fun hc => hc.1 hlv0)]
        by_cases hopen : 2 < t.data.length - t.read ∧ t.data.getD t.read 0 = 36 ∧
          t.data.getD (t.read + 1) 0 = 123
        case pos =>
          rw [if_pos hopen, if_pos hlv0]
          by_cases htok : listSlice t.data start t.read = []
          case pos =>
            rw [if_neg (by simpa using htok)]
            have hstart : start = t.read := by
              unfold listSlice at htok
              rw [List.drop_eq_nil_iff, List.length_take] at htok
              omega
            have hlv1 : (t.level + 1) % 256 = 1 := by rw [hlv0]
            have hA : 1 ≤ (t.level + 1) % 256 := by rw [hlv1]
            have hB : 2 * ((t.level + 1) % 256) ≤ t.read + 2 := by rw [hlv1]; omega
            have hC : t.read + 2 ≤ t.read + 2 := le_refl _
            have hD : t.read + 2 ≤ t.data.length := by omega
            have hE : t.read + 2 < t.data.length := by omega
            have hF : t.data.length - (t.read + 2) ≤ gas := by omega
            have hiffK : t.flags = 2 ↔
                ∃ p, t.read + 2 ≤ p ∧ p + 2 ≤ t.read + 2 ∧ gatedOpenAt t.data p := by
              constructor
              · intro hcon; rw [hfl0] at hcon; omega
              · rintro ⟨p, hp1, hp2, _⟩; omega
            have hnsK : ∀ p, p + 1 = t.read + 2 → t.read + 2 ≤ p →
                ¬ gatedOpenAt t.data p := by
              intro p hp1 hp2 _
              omega
            have hres := scanKey gas
              { t with level := (t.level + 1) % 256, read := t.read + 2 } (t.read + 2)
              h511 hA hB hC hD hE hF (Or.inl hfl0) hiffK hnsK
            rcases hres with ⟨e2, bk, he1, he2, he3, heq, hbk⟩ | ⟨lv, bk, hlv, heq, hbk⟩
            · right; right; right; right; right; left
              have he1a : t.read + 2 ≤ e2 := he1
              refine ⟨e2, bk, by omega, he2, he3, hstart, by omega, ?_, ?_, ?_, ?_⟩
              · rw [hstart]; exact hopen.2.1
              · rw [hstart]; exact hopen.2.2
              · rw [hstart]; exact heq
              · rw [hstart]; exact hbk
            · right; right; right; right; right; right
              refine ⟨lv, bk, hlv, hstart, by omega, ?_, ?_, ?_, ?_⟩
              · rw [hstart]; exact hopen.2.1
              · rw [hstart]; exact hopen.2.2
              · rw [hstart]; exact heq
              · rw [hstart]; exact hbk
          case neg =>
            rw [if_pos (by simpa using htok)]
            right; right; right; right; left
            refine ⟨t.read, le_refl _, by omega, hopen.2.1, hopen.2.2, ?_, ?_⟩
            · unfold listSlice at htok
              by_contra hcon
              apply htok
              rw [List.drop_eq_nil_iff, List.length_take]
              omega
            · rw [Prod.mk.injEq, Tokenizer.mk.injEq]
              refine ⟨rfl, rfl, rfl, hfl0, ?_, rfl⟩
              rw [hlv0]
        case neg =>
          rw [if_neg hopen]
          have hB' : start ≤ t.read + 1 := by omega
          have hC' : t.read + 1 ≤ t.data.length := by omega
          have hD' : t.data.length - (t.read + 1) ≤ gas := by omega
          have hres := ih { t with read := t.read + 1 } start h511 hlv0 hfl0 hB' hC' hD'
          rcases hres with ⟨heq, hle⟩ | ⟨heq, hlt⟩ | ⟨e, he1, he2, he3, he4, heq⟩ |
            ⟨hb, hs, heq⟩ | ⟨e, he1, he2, he3, he4, he5, heq⟩ |
            ⟨e2, bk, hf1, hf2, hf3, hf4, hf5, hf6, hf7, heq, hbk⟩ |
            ⟨lv, bk, hf1, hf2, hf3, hf4, hf5, heq, hbk⟩
          · exact Or.inl ⟨heq, hle⟩
          · exact Or.inr (Or.inl ⟨heq, hlt⟩)
          · have he1a : t.read + 1 ≤ e := he1
            exact Or.inr (Or.inr (Or.inl ⟨e, by omega, he2, he3, he4, heq⟩))
          · have hs' : start = t.read + 1 := hs
            omega
          · have he1a : t.read + 1 ≤ e := he1
            exact Or.inr (Or.inr (Or.inr (Or.inr (Or.inl
              ⟨e, by omega, he2, he3, he4, he5, heq⟩))))
          · have hs' : start = t.read + 1 := hf4
            omega
          · have hs' : start = t.read + 1 := hf2
            omega

/-! ## List index bookkeeping -/

theorem drop_eq_getD_cons (l : List Nat) (r : Nat) (h : r < l.length) :
    l.drop r = l.getD r 0 :: l.drop (r + 1) := by
  rw [List.getD_eq_getElem _ _ h]
  exact List.drop_eq_getElem_cons h

theorem slice_append_drop (l : List Nat) (r e : Nat) (hre : r ≤ e) (hel : e ≤ l.length) :
    listSlice l r e ++ l.drop e = l.drop r := by
  show (l.take e).drop r ++ l.drop e = l.drop r
  have h1 : l.drop r = (l.take e ++ l.drop e).drop r := by rw [List.take_append_drop]
  rw [h1, List.drop_append_of_le_length (by rw [List.length_take]; omega)]

theorem take_drop_append_drop (l : List Nat) (r n : Nat) :
    (l.drop r).take n ++ l.drop (r + n) = l.drop r := by
  rw [show l.drop (r + n) = (l.drop r).drop n from by rw [List.drop_drop, Nat.add_comm]]
  exact List.take_append_drop n (l.drop r)

theorem getD_drop (l : List Nat) (a i : Nat) : (l.drop a).getD i 0 = l.getD (a + i) 0 := by
  simp [List.getD_eq_getElem?_getD, List.getElem?_drop]

theorem getD_take (l : List Nat) (e i : Nat) (h : i < e) :
    (l.take e).getD i 0 = l.getD i 0 := by
  simp [List.getD_eq_getElem?_getD, List.getElem?_take, h]

theorem getD_slice (l : List Nat) (a e i : Nat) (h : i < e - a) :
    (listSlice l a e).getD i 0 = l.getD (a + i) 0 := by
  show ((l.take e).drop a).getD i 0 = _
  rw [getD_drop, getD_take]
  omega

theorem length_slice (l : List Nat) (a e : Nat) (he : e ≤ l.length) :
    (listSlice l a e).length = e - a := by
  show ((l.take e).drop a).length = e - a
  rw [List.length_drop, List.length_take]
  omega

/-- Index translation for a key closed by the close byte: detected gated
occurrences inside `[a, e)` correspond exactly to `${` occurrences inside
the slice. -/
theorem slice_open_iff (data : List Nat) (a e : Nat) (hae : a ≤ e)
    (he : e < data.length) :
    ((∃ p, a ≤ p ∧ p + 2 ≤ e ∧ gatedOpenAt data p) ↔
      (∃ i, i + 1 < (listSlice data a e).length ∧
        (listSlice data a e).getD i 0 = 36 ∧
        (listSlice data a e).getD (i + 1) 0 = 123)) := by
  rw [length_slice data a e (by omega)]
  constructor
  · rintro ⟨p, hap, hpe, hg1, hg2, hg3⟩
    refine ⟨p - a, by omega, ?_, ?_⟩
    · rw [getD_slice data a e _ (by omega), show a + (p - a) = p from by omega]
      exact hg1
    · rw [getD_slice data a e _ (by omega), show a + (p - a + 1) = p + 1 from by omega]
      exact hg2
  · rintro ⟨i, hi, h36, h123⟩
    refine ⟨a + i, by omega, by omega, ?_, ?_, by omega⟩
    · rw [getD_slice data a e i (by omega)] at h36
      exact h36
    · rw [getD_slice data a e (i + 1) (by omega)] at h123
      rw [show a + (i + 1) = a + i + 1 from by omega] at h123
      exact h123

/-- Index translation for an end-of-input key: detected gated occurrences
from `a` correspond to `${` occurrences in the suffix that do not occupy
its final two bytes. -/
theorem drop_open_iff (data : List Nat) (a : Nat) (ha : a ≤ data.length) :
    ((∃ p, a ≤ p ∧ gatedOpenAt data p) ↔
      (∃ i, i + 3 ≤ (data.drop a).length ∧
        (data.drop a).getD i 0 = 36 ∧ (data.drop a).getD (i + 1) 0 = 123)) := by
  rw [List.length_drop]
  constructor
  · rintro ⟨p, hap, hg1, hg2, hg3⟩
    refine ⟨p - a, by omega, ?_, ?_⟩
    · rw [getD_drop, show a + (p - a) = p from by omega]
      exact hg1
    · rw [getD_drop, show a + (p - a + 1) = p + 1 from by omega]
      exact hg2
  · rintro ⟨i, hi, h36, h123⟩
    rw [getD_drop] at h36
    rw [getD_drop, show a + (i + 1) = a + i + 1 from by omega] at h123
    exact ⟨a + i, by omega, h36, h123, by omega⟩

/-! ## Between-token state classes and the run lemma -/

/-- A state from which `next` starts a fresh literal span: no pending
escape, depth zero. -/
def Clean (t : Tokenizer) : Prop :=
  t.flags = 0 ∧ t.level = 0

/-- A state with a pending escape: the escape byte sits just before the
cursor. -/
def Armed (t : Tokenizer) : Prop :=
  t.flags = 1 ∧ t.level = 0 ∧ 1 ≤ t.read ∧ t.read ≤ t.data.length ∧
    t.data.getD (t.read - 1) 0 = t.escape

/-- A state entered right after a `Normal` token was emitted for the text
before an open sequence: the `${` sits just before the cursor, depth one,
nothing scanned of the key yet. -/
def KeyEntry (t : Tokenizer) : Prop :=
  t.flags = 0 ∧ t.level = 1 ∧ 2 ≤ t.read ∧ t.read + 1 ≤ t.data.length ∧
    t.data.getD (t.read - 2) 0 = 36 ∧ t.data.getD (t.read - 1) 0 = 123

theorem next_eq_scanLoop (t : Tokenizer) (hf : t.flags = 0)
    (hr : t.read < t.data.length) :
    t.next = Tokenizer.scanLoop (t.data.length - t.read) t t.read := by
  simp only [Tokenizer.next]
  rw [if_neg (by rw [hf]; norm_num), if_neg (by omega)]

theorem next_armed_eq (t : Tokenizer) (hf : t.flags = 1) :
    t.next = (some (Tokenizer.escapedCharacter ⟨t.data, t.read, 0, t.level, t.escape⟩).1,
      (Tokenizer.escapedCharacter ⟨t.data, t.read, 0, t.level, t.escape⟩).2) := by
  simp only [Tokenizer.next]
  rw [if_pos (by rw [hf]; decide)]
  have hst : ({ t with flags := t.flags ^^^ ESCAPED } : Tokenizer) =
      ⟨t.data, t.read, 0, t.level, t.escape⟩ := by
    rw [Tokenizer.mk.injEq]
    refine ⟨rfl, rfl, ?_, rfl, rfl⟩
    rw [hf]
    decide
  rw [hst]

/-- The corrected reconstruction rule: `Normal` contributes its text,
`Escaped` contributes the configured escape byte followed by the decoded
character, `Key` contributes both delimiters plus its raw text. -/
def tokenTextFull (escape : Nat) : Token → List Nat
  | Token.Normal s => s
  | Token.Escaped c => escape :: c
  | Token.Key s _ => 36 :: 123 :: (s ++ [125])

/-- Concatenation of the contributions of a token list. -/
def flatOut (escape : Nat) (toks : List Token) : List Nat :=
  (toks.map (tokenTextFull escape)).flatten

theorem flatOut_nil (escape : Nat) : flatOut escape [] = [] := rfl

theorem flatOut_cons (escape : Nat) (tok : Token) (toks : List Token) :
    flatOut escape (tok :: toks) = tokenTextFull escape tok ++ flatOut escape toks := by
  simp [flatOut]

/-- The three possible reconstruction outcomes for the rest of a run from a
state whose not-yet-contributed input starts at byte `base`: the exact
remaining bytes, or those plus a phantom close byte (unterminated
placeholder), or those plus a phantom backslash (trailing escape). -/
def Flat3 (t : Tokenizer) (toks : List Token) (base : Nat) : Prop :=
  flatOut t.escape toks = t.data.drop base ∨
    flatOut t.escape toks = t.data.drop base ++ [125] ∨
    flatOut t.escape toks = t.data.drop base ++ [92]

/-- Every `Key` token of a result either has its flag equal to "the text
contains a complete `${`", or is the final token of a run that ended inside
an unterminated placeholder and has its flag equal to "the text contains a
complete `${` not occupying its final two bytes". -/
def KeysOk (res : List Token × Tokenizer) : Prop :=
  ∀ s b, Token.Key s b ∈ res.1 →
    ((b = true ↔ ∃ i, i + 1 < s.length ∧ s.getD i 0 = 36 ∧ s.getD (i + 1) 0 = 123) ∨
     (res.2.level ≠ 0 ∧ res.1.getLast? = some (Token.Key s b) ∧
      (b = true ↔ ∃ i, i + 3 ≤ s.length ∧ s.getD i 0 = 36 ∧ s.getD (i + 1) 0 = 123)))

theorem tokenizeAux_none_any (fuel : Nat) (t t' : Tokenizer) (hfuel : 1 ≤ fuel)
    (h : t.next = (none, t')) : Tokenizer.tokenizeAux fuel t = ([], t') := by
  cases fuel with
  | zero => omega
  | succ f => exact tokenizeAux_succ_none f t t' h

theorem or3_append (data pre x : List Nat) (base m : Nat)
    (hx : x = data.drop m ∨ x = data.drop m ++ [125] ∨ x = data.drop m ++ [92])
    (hpre : pre ++ data.drop m = data.drop base) :
    pre ++ x = data.drop base ∨ pre ++ x = data.drop base ++ [125] ∨
      pre ++ x = data.drop base ++ [92] := by
  rcases hx with rfl | rfl | rfl
  · exact Or.inl hpre
  · right; left
    rw [← List.append_assoc, hpre]
  · right; right
    rw [← List.append_assoc, hpre]

theorem keysOk_nil (tf : Tokenizer) : KeysOk ([], tf) := by
  intro s b hmem
  simp at hmem

theorem keysOk_not_key (tok : Token) (res : List Token × Tokenizer)
    (hnk : isKeyTok tok = false) (hko : KeysOk res) :
    KeysOk (tok :: res.1, res.2) := by
  intro s b hmem
  rcases List.mem_cons.mp hmem with heq | hmem2
  · rw [← heq] at hnk
    simp [isKeyTok] at hnk
  · rcases hko s b hmem2 with h | ⟨h1, h2, h3⟩
    · exact Or.inl h
    · refine Or.inr ⟨h1, ?_, h3⟩
      cases hr : res.1 with
      | nil =>
        rw [hr] at h2
        simp at h2
      | cons r rs =>
        rw [hr] at h2
        rw [List.getLast?_cons_cons]
        exact h2

theorem keysOk_key_closed (s0 : List Nat) (bk : Bool) (res : List Token × Tokenizer)
    (hiff : bk = true ↔ ∃ i, i + 1 < s0.length ∧ s0.getD i 0 = 36 ∧ s0.getD (i + 1) 0 = 123)
    (hko : KeysOk res) :
    KeysOk (Token.Key s0 bk :: res.1, res.2) := by
  intro s b hmem
  rcases List.mem_cons.mp hmem with heq | hmem2
  · rw [Token.Key.injEq] at heq
    rw [heq.1, heq.2]
    exact Or.inl hiff
  · rcases hko s b hmem2 with h | ⟨h1, h2, h3⟩
    · exact Or.inl h
    · refine Or.inr ⟨h1, ?_, h3⟩
      cases hr : res.1 with
      | nil =>
        rw [hr] at h2
        simp at h2
      | cons r rs =>
        rw [hr] at h2
        rw [List.getLast?_cons_cons]
        exact h2

theorem keysOk_single_end (s0 : List Nat) (bk : Bool) (tf : Tokenizer)
    (hlv : tf.level ≠ 0)
    (hiff : bk = true ↔ ∃ i, i + 3 ≤ s0.length ∧ s0.getD i 0 = 36 ∧ s0.getD (i + 1) 0 = 123) :
    KeysOk ([Token.Key s0 bk], tf) := by
  intro s b hmem
  rcases List.mem_singleton.mp hmem with heq
  rw [Token.Key.injEq] at heq
  rw [heq.1, heq.2]
  exact Or.inr ⟨hlv, by rw [List.getLast?_singleton], hiff⟩

theorem utf8CharLen_pos (b : Nat) : 1 ≤ utf8CharLen b := by
  unfold utf8CharLen
  split_ifs <;> omega

theorem escapedCharacter_eq_nil (t : Tokenizer) (h : t.data.drop t.read = []) :
    t.escapedCharacter = (Token.Escaped [92], t) := by
  unfold Tokenizer.escapedCharacter
  rw [h]

theorem escapedCharacter_eq_cons (t : Tokenizer) (bh : Nat) (rest : List Nat)
    (h : t.data.drop t.read = bh :: rest) :
    t.escapedCharacter = (Token.Escaped ((bh :: rest).take (utf8CharLen bh)),
      { t with read := t.read + utf8CharLen bh }) := by
  unfold Tokenizer.escapedCharacter
  rw [h]

theorem runMain : ∀ (fuel : Nat) (t : Tokenizer), t.data.length ≤ 511 →
    ((Clean t → t.data.length - t.read + 1 ≤ fuel →
        Flat3 t (Tokenizer.tokenizeAux fuel t).1 t.read ∧
        KeysOk (Tokenizer.tokenizeAux fuel t)) ∧
     (Armed t → t.data.length - t.read + 2 ≤ fuel →
        Flat3 t (Tokenizer.tokenizeAux fuel t).1 (t.read - 1) ∧
        KeysOk (Tokenizer.tokenizeAux fuel t)) ∧
     (KeyEntry t → t.data.length - t.read + 1 ≤ fuel →
        Flat3 t (Tokenizer.tokenizeAux fuel t).1 (t.read - 2) ∧
        KeysOk (Tokenizer.tokenizeAux fuel t))) := by
  intro fuel
  induction fuel with
  | zero =>
    intro t h511
    refine ⟨?_, ?_, ?_⟩ <;> exact fun _ hf => by omega
  | succ fuel ih =>
    intro t h511
    refine ⟨?_, ?_, ?_⟩
    · -- Clean entry state
      rintro ⟨hfl0, hlv0⟩ hfuel
      by_cases hrl : t.read < t.data.length
      case neg =>
        have hnone : t.next = (none, t) :=
          next_exhausted t (by rw [hfl0]; decide) (by omega)
        rw [tokenizeAux_succ_none fuel t t hnone]
        refine ⟨Or.inl ?_, keysOk_nil t⟩
        rw [flatOut_nil, List.drop_eq_nil_of_le (by omega)]
      case pos =>
        have hnext0 := next_eq_scanLoop t hfl0 hrl
        have hsc := scanLit (t.data.length - t.read) t t.read h511 hlv0 hfl0 (le_refl _)
          (by omega) (le_refl _)
        rcases hsc with ⟨heq, hle⟩ | ⟨heq, hlt⟩ | ⟨e, he1, he2, he3, he4, heq⟩ |
          ⟨hb, hs, heq⟩ | ⟨e, he1, he2, he3, he4, he5, heq⟩ |
          ⟨e2, bk, hf1, hf2, hf3, hf4, hf5, hf6, hf7, heq, hbk⟩ |
          ⟨lv, bk, hl1, hl2, hl3, hl4, hl5, heq, hbk⟩
        · omega
        · -- B: final literal
          have hnext : t.next = (some (Token.Normal (t.data.drop t.read)),
              (⟨t.data, t.data.length, 0, 0, t.escape⟩ : Tokenizer)) := hnext0.trans heq
          rw [tokenizeAux_succ_some fuel t _ _ hnext]
          have hnone2 : Tokenizer.next (⟨t.data, t.data.length, 0, 0, t.escape⟩ : Tokenizer) =
              (none, ⟨t.data, t.data.length, 0, 0, t.escape⟩) :=
            next_exhausted _ (by show (0 : Nat) &&& ESCAPED = 0; decide) (le_refl _)
          rw [tokenizeAux_none_any fuel _ _ (by omega) hnone2]
          refine ⟨Or.inl ?_, keysOk_not_key _ _ rfl (keysOk_nil _)⟩
          rw [flatOut_cons, flatOut_nil, List.append_nil]
          rfl
        · -- C: literal before an escape byte
          have hnext : t.next = (some (Token.Normal (listSlice t.data t.read e)),
              (⟨t.data, e + 1, 1, 0, t.escape⟩ : Tokenizer)) := hnext0.trans heq
          rw [tokenizeAux_succ_some fuel t _ _ hnext]
          have hA : Armed (⟨t.data, e + 1, 1, 0, t.escape⟩ : Tokenizer) :=
            ⟨rfl, rfl, show 1 ≤ e + 1 by omega, show e + 1 ≤ t.data.length by omega, he3⟩
          obtain ⟨hflat, hkeys⟩ := (ih (⟨t.data, e + 1, 1, 0, t.escape⟩ : Tokenizer) h511).2.1
            hA (by show t.data.length - (e + 1) + 2 ≤ fuel; omega)
          constructor
          · show flatOut t.escape _ = _ ∨ _
            rw [flatOut_cons]
            exact or3_append t.data _ _ t.read e hflat
              (slice_append_drop t.data t.read e (by omega) (by omega))
          · exact keysOk_not_key _ _ rfl hkeys
        · -- D: escape byte with empty span
          cases hdrop : t.data.drop (t.read + 1) with
          | nil =>
            have hec := escapedCharacter_eq_nil
              (⟨t.data, t.read + 1, 0, 0, t.escape⟩ : Tokenizer) hdrop
            rw [hec] at heq
            have hnext : t.next = (some (Token.Escaped [92]),
                (⟨t.data, t.read + 1, 0, 0, t.escape⟩ : Tokenizer)) := hnext0.trans heq
            rw [tokenizeAux_succ_some fuel t _ _ hnext]
            have hrlen1 : t.data.length ≤ t.read + 1 := by
              have := List.drop_eq_nil_iff.mp hdrop
              omega
            have hnone2 : Tokenizer.next (⟨t.data, t.read + 1, 0, 0, t.escape⟩ : Tokenizer) =
                (none, ⟨t.data, t.read + 1, 0, 0, t.escape⟩) :=
              next_exhausted _ (by show (0 : Nat) &&& ESCAPED = 0; decide) hrlen1
            rw [tokenizeAux_none_any fuel _ _ (by omega) hnone2]
            refine ⟨Or.inr (Or.inr ?_), keysOk_not_key _ _ rfl (keysOk_nil _)⟩
            rw [flatOut_cons, flatOut_nil, List.append_nil]
            show t.escape :: [92] = t.data.drop t.read ++ [92]
            rw [drop_eq_getD_cons t.data t.read hrl, hdrop, hb]
            rfl
          | cons bh rest =>
            have hec := escapedCharacter_eq_cons
              (⟨t.data, t.read + 1, 0, 0, t.escape⟩ : Tokenizer) bh rest hdrop
            rw [hec] at heq
            have hnext : t.next = (some (Token.Escaped ((bh :: rest).take (utf8CharLen bh))),
                (⟨t.data, t.read + 1 + utf8CharLen bh, 0, 0, t.escape⟩ : Tokenizer)) :=
              hnext0.trans heq
            rw [tokenizeAux_succ_some fuel t _ _ hnext]
            obtain ⟨hflat, hkeys⟩ :=
              (ih (⟨t.data, t.read + 1 + utf8CharLen bh, 0, 0, t.escape⟩ : Tokenizer) h511).1
              ⟨rfl, rfl⟩
              (by
                show t.data.length - (t.read + 1 + utf8CharLen bh) + 1 ≤ fuel
                omega)
            constructor
            · show flatOut t.escape _ = _ ∨ _
              rw [flatOut_cons]
              refine or3_append t.data _ _ t.read (t.read + 1 + utf8CharLen bh) hflat ?_
              show t.escape :: (bh :: rest).take (utf8CharLen bh) ++
                t.data.drop (t.read + 1 + utf8CharLen bh) = t.data.drop t.read
              rw [List.cons_append]
              rw [show t.read + 1 + utf8CharLen bh = t.read + 1 + utf8CharLen bh from rfl,
                ← hdrop]
              rw [take_drop_append_drop t.data (t.read + 1) (utf8CharLen bh)]
              rw [drop_eq_getD_cons t.data t.read hrl, hb]
            · exact keysOk_not_key _ _ rfl hkeys
        · -- E: literal before an open sequence
          have hnext : t.next = (some (Token.Normal (listSlice t.data t.read e)),
              (⟨t.data, e + 2, 0, 1, t.escape⟩ : Tokenizer)) := hnext0.trans heq
          rw [tokenizeAux_succ_some fuel t _ _ hnext]
          have hK : KeyEntry (⟨t.data, e + 2, 0, 1, t.escape⟩ : Tokenizer) :=
            ⟨rfl, rfl, show 2 ≤ e + 2 by omega,
              show e + 2 + 1 ≤ t.data.length by omega, he3, he4⟩
          obtain ⟨hflat, hkeys⟩ := (ih (⟨t.data, e + 2, 0, 1, t.escape⟩ : Tokenizer) h511).2.2
            hK (by show t.data.length - (e + 2) + 1 ≤ fuel; omega)
          constructor
          · show flatOut t.escape _ = _ ∨ _
            rw [flatOut_cons]
            exact or3_append t.data _ _ t.read e hflat
              (slice_append_drop t.data t.read e (by omega) (by omega))
          · exact keysOk_not_key _ _ rfl hkeys
        · -- F1: empty span, key closed in the same call
          have hnext : t.next = (some (Token.Key (listSlice t.data (t.read + 2) e2) bk),
              (⟨t.data, e2 + 1, 0, 0, t.escape⟩ : Tokenizer)) := hnext0.trans heq
          have hrd2 : t.read + 2 ≤ e2 := hf1
          have h36 : t.data.getD t.read 0 = 36 := hf6
          have h123 : t.data.getD (t.read + 1) 0 = 123 := hf7
          have h3len : t.read + 3 ≤ t.data.length := hf5
          rw [tokenizeAux_succ_some fuel t _ _ hnext]
          obtain ⟨hflat, hkeys⟩ := (ih (⟨t.data, e2 + 1, 0, 0, t.escape⟩ : Tokenizer) h511).1
            ⟨rfl, rfl⟩
            (by
              show t.data.length - (e2 + 1) + 1 ≤ fuel
              omega)
          constructor
          · show flatOut t.escape _ = _ ∨ _
            rw [flatOut_cons]
            refine or3_append t.data _ _ t.read (e2 + 1) hflat ?_
            show 36 :: 123 :: (listSlice t.data (t.read + 2) e2 ++ [125]) ++
              t.data.drop (e2 + 1) = t.data.drop t.read
            rw [drop_eq_getD_cons t.data t.read hrl, h36,
              drop_eq_getD_cons t.data (t.read + 1) (by omega), h123]
            rw [← slice_append_drop t.data (t.read + 2) e2 hrd2 (by omega)]
            rw [drop_eq_getD_cons t.data e2 hf2, hf3]
            simp [List.append_assoc]
          · refine keysOk_key_closed _ _ _ ?_ hkeys
            exact hbk.trans (slice_open_iff t.data (t.read + 2) e2 hrd2 hf2)
        · -- F2: empty span, key unterminated at end of input
          have hnext : t.next = (some (Token.Key (t.data.drop (t.read + 2)) bk),
              (⟨t.data, t.data.length, 0, lv, t.escape⟩ : Tokenizer)) := hnext0.trans heq
          rw [tokenizeAux_succ_some fuel t _ _ hnext]
          have hnone2 : Tokenizer.next
              (⟨t.data, t.data.length, 0, lv, t.escape⟩ : Tokenizer) =
              (none, ⟨t.data, t.data.length, 0, lv, t.escape⟩) :=
            next_exhausted _ (by show (0 : Nat) &&& ESCAPED = 0; decide) (le_refl _)
          rw [tokenizeAux_none_any fuel _ _ (by omega) hnone2]
          have h36 : t.data.getD t.read 0 = 36 := hl4
          have h123 : t.data.getD (t.read + 1) 0 = 123 := hl5
          have h3len : t.read + 3 ≤ t.data.length := hl3
          constructor
          · refine Or.inr (Or.inl ?_)
            rw [flatOut_cons, flatOut_nil, List.append_nil]
            show 36 :: 123 :: (t.data.drop (t.read + 2) ++ [125]) =
              t.data.drop t.read ++ [125]
            rw [drop_eq_getD_cons t.data t.read hrl, h36,
              drop_eq_getD_cons t.data (t.read + 1) (by omega), h123]
            simp
          · refine keysOk_single_end _ _ _ (by show lv ≠ 0; omega) ?_
            exact hbk.trans (drop_open_iff t.data (t.read + 2) (by omega))
    · -- Armed entry state
      rintro ⟨hfl1, hlv0, hrd1, hrdlen, hbesc⟩ hfuel
      have hnext0 := next_armed_eq t hfl1
      rw [hlv0] at hnext0
      cases hdrop : t.data.drop t.read with
      | nil =>
        have hec := escapedCharacter_eq_nil
          (⟨t.data, t.read, 0, 0, t.escape⟩ : Tokenizer) hdrop
        rw [hec] at hnext0
        rw [tokenizeAux_succ_some fuel t _ _ hnext0]
        have hrdeq : t.data.length ≤ t.read := by
          have := List.drop_eq_nil_iff.mp hdrop
          omega
        have hnone2 : Tokenizer.next (⟨t.data, t.read, 0, 0, t.escape⟩ : Tokenizer) =
            (none, ⟨t.data, t.read, 0, 0, t.escape⟩) :=
          next_exhausted _ (by show (0 : Nat) &&& ESCAPED = 0; decide) hrdeq
        rw [tokenizeAux_none_any fuel _ _ (by omega) hnone2]
        refine ⟨Or.inr (Or.inr ?_), keysOk_not_key _ _ rfl (keysOk_nil _)⟩
        rw [flatOut_cons, flatOut_nil, List.append_nil]
        show t.escape :: [92] = t.data.drop (t.read - 1) ++ [92]
        rw [drop_eq_getD_cons t.data (t.read - 1) (by omega), hbesc]
        rw [show t.read - 1 + 1 = t.read from by omega, hdrop]
        rfl
      | cons bh rest =>
        have hec := escapedCharacter_eq_cons
          (⟨t.data, t.read, 0, 0, t.escape⟩ : Tokenizer) bh rest hdrop
        rw [hec] at hnext0
        rw [tokenizeAux_succ_some fuel t _ _ hnext0]
        have hrllt : t.read < t.data.length := by
          by_contra hcon
          rw [List.drop_eq_nil_of_le (by omega)] at hdrop
          exact List.noConfusion hdrop
        obtain ⟨hflat, hkeys⟩ :=
          (ih (⟨t.data, t.read + utf8CharLen bh, 0, 0, t.escape⟩ : Tokenizer) h511).1
          ⟨rfl, rfl⟩
          (by
            show t.data.length - (t.read + utf8CharLen bh) + 1 ≤ fuel
            have := utf8CharLen_pos bh
            omega)
        constructor
        · show flatOut t.escape _ = _ ∨ _
          rw [flatOut_cons]
          refine or3_append t.data _ _ (t.read - 1) (t.read + utf8CharLen bh) hflat ?_
          show t.escape :: (bh :: rest).take (utf8CharLen bh) ++
            t.data.drop (t.read + utf8CharLen bh) = t.data.drop (t.read - 1)
          rw [List.cons_append, ← hdrop]
          rw [take_drop_append_drop t.data t.read (utf8CharLen bh)]
          rw [drop_eq_getD_cons t.data (t.read - 1) (by omega), hbesc]
          rw [show t.read - 1 + 1 = t.read from by omega]
        · exact keysOk_not_key _ _ rfl hkeys
    · -- KeyEntry state
      rintro ⟨hfl0, hlv1, hrd2, hrdlen, hb36, hb123⟩ hfuel
      have hrl : t.read < t.data.length := by omega
      have hnext0 := next_eq_scanLoop t hfl0 hrl
      have hiffK : t.flags = 2 ↔
          ∃ p, t.read ≤ p ∧ p + 2 ≤ t.read ∧ gatedOpenAt t.data p := by
        constructor
        · intro hcon
          rw [hfl0] at hcon
          omega
        · rintro ⟨p, hp1, hp2, _⟩
          omega
      have hnsK : ∀ p, p + 1 = t.read → t.read ≤ p → ¬ gatedOpenAt t.data p := by
        intro p hp1 hp2 _
        omega
      have hres := scanKey (t.data.length - t.read) t t.read h511 (by omega)
        (by omega) (le_refl _) (by omega) hrl (le_refl _) (Or.inl hfl0) hiffK hnsK
      rcases hres with ⟨e2, bk, he1, he2, he3, heq, hbk⟩ | ⟨lv, bk, hlv, heq, hbk⟩
      · -- K1: key closed by the close byte
        have hnext : t.next = (some (Token.Key (listSlice t.data t.read e2) bk),
            (⟨t.data, e2 + 1, 0, 0, t.escape⟩ : Tokenizer)) := hnext0.trans heq
        rw [tokenizeAux_succ_some fuel t _ _ hnext]
        obtain ⟨hflat, hkeys⟩ := (ih (⟨t.data, e2 + 1, 0, 0, t.escape⟩ : Tokenizer) h511).1
          ⟨rfl, rfl⟩
          (by
            show t.data.length - (e2 + 1) + 1 ≤ fuel
            omega)
        constructor
        · show flatOut t.escape _ = _ ∨ _
          rw [flatOut_cons]
          refine or3_append t.data _ _ (t.read - 2) (e2 + 1) hflat ?_
          show 36 :: 123 :: (listSlice t.data t.read e2 ++ [125]) ++
            t.data.drop (e2 + 1) = t.data.drop (t.read - 2)
          rw [drop_eq_getD_cons t.data (t.read - 2) (by omega), hb36,
            show t.read - 2 + 1 = t.read - 1 from by omega,
            drop_eq_getD_cons t.data (t.read - 1) (by omega), hb123,
            show t.read - 1 + 1 = t.read from by omega]
          rw [← slice_append_drop t.data t.read e2 he1 (by omega)]
          rw [drop_eq_getD_cons t.data e2 he2, he3]
          simp [List.append_assoc]
        · refine keysOk_key_closed _ _ _ ?_ hkeys
          exact hbk.trans (slice_open_iff t.data t.read e2 he1 he2)
      · -- K2: key unterminated at end of input
        have hnext : t.next = (some (Token.Key (t.data.drop t.read) bk),
            (⟨t.data, t.data.length, 0, lv, t.escape⟩ : Tokenizer)) := hnext0.trans heq
        rw [tokenizeAux_succ_some fuel t _ _ hnext]
        have hnone2 : Tokenizer.next
            (⟨t.data, t.data.length, 0, lv, t.escape⟩ : Tokenizer) =
            (none, ⟨t.data, t.data.length, 0, lv, t.escape⟩) :=
          next_exhausted _ (by show (0 : Nat) &&& ESCAPED = 0; decide) (le_refl _)
        rw [tokenizeAux_none_any fuel _ _ (by omega) hnone2]
        constructor
        · refine Or.inr (Or.inl ?_)
          rw [flatOut_cons, flatOut_nil, List.append_nil]
          show 36 :: 123 :: (t.data.drop t.read ++ [125]) =
            t.data.drop (t.read - 2) ++ [125]
          rw [drop_eq_getD_cons t.data (t.read - 2) (by omega), hb36,
            show t.read - 2 + 1 = t.read - 1 from by omega,
            drop_eq_getD_cons t.data (t.read - 1) (by omega), hb123,
            show t.read - 1 + 1 = t.read from by omega]
          simp
        · refine keysOk_single_end _ _ _ (by show lv ≠ 0; omega) ?_
          exact hbk.trans (drop_open_iff t.data t.read (by omega))

/-- Claim C4, amended: with `Escaped` contributing the escape byte plus its
decoded character and `Key` contributing both delimiters plus its raw text,
the concatenation reconstructs the pattern exactly, except that a run ending
in an unterminated placeholder reconstructs the pattern plus a phantom `}`
and a run ending in a trailing escape reconstructs the pattern plus a
phantom `\\` (for patterns shorter than 512 bytes, below the wrap-around of
the u8 depth counter). -/
theorem claim4_amended (data : List Nat) (escape : Nat) (h511 : data.length ≤ 511) :
    flatOut escape (((Tokenizer.new data).setEscape escape).tokens) = data ∨
      flatOut escape (((Tokenizer.new data).setEscape escape).tokens) = data ++ [125] ∨
      flatOut escape (((Tokenizer.new data).setEscape escape).tokens) = data ++ [92] := by
  have h := ((runMain (data.length + 2) ⟨data, 0, 0, 0, escape⟩ h511).1
    ⟨rfl, rfl⟩ (show data.length - 0 + 1 ≤ data.length + 2 from by omega)).1
  unfold Flat3 at h
  rw [List.drop_zero] at h
  exact h

/-- Witness for claim C4's amended theorem on `"a${b}c\\d"`. -/
theorem claim4_wit :
    flatOut 92 (((Tokenizer.new [97, 36, 123, 98, 125, 99, 92, 100]).setEscape 92).tokens) =
        [97, 36, 123, 98, 125, 99, 92, 100] ∨
      flatOut 92 (((Tokenizer.new [97, 36, 123, 98, 125, 99, 92, 100]).setEscape 92).tokens) =
        [97, 36, 123, 98, 125, 99, 92, 100] ++ [125] ∨
      flatOut 92 (((Tokenizer.new [97, 36, 123, 98, 125, 99, 92, 100]).setEscape 92).tokens) =
        [97, 36, 123, 98, 125, 99, 92, 100] ++ [92] :=
  claim4_amended [97, 36, 123, 98, 125, 99, 92, 100] 92 (by decide)

/-- Claim C1, amended: for patterns shorter than 512 bytes (the u8 depth
counter wraps past 255 nested opens), each emitted `Key`'s flag equals
"the raw text contains a complete `${`", except for the final token of a
run ending in an unterminated placeholder, whose flag equals "the raw text
contains a complete `${` not occupying its final two bytes" -- the gated
detector `data.len() - read > 2` misses an open sequence sitting in the
pattern's last two bytes. -/
theorem claim1_amended (data : List Nat) (escape : Nat) (h511 : data.length ≤ 511) :
    ∀ s b, Token.Key s b ∈ ((Tokenizer.new data).setEscape escape).tokens →
      ((b = true ↔ ∃ i, i + 1 < s.length ∧ s.getD i 0 = 36 ∧ s.getD (i + 1) 0 = 123) ∨
       (((Tokenizer.new data).setEscape escape).finalState.level ≠ 0 ∧
        (((Tokenizer.new data).setEscape escape).tokens).getLast? =
          some (Token.Key s b) ∧
        (b = true ↔ ∃ i, i + 3 ≤ s.length ∧ s.getD i 0 = 36 ∧ s.getD (i + 1) 0 = 123))) := by
  exact ((runMain (data.length + 2) ⟨data, 0, 0, 0, escape⟩ h511).1
    ⟨rfl, rfl⟩ (show data.length - 0 + 1 ≤ data.length + 2 from by omega)).2

/-- Witness for claim C1's amended theorem on `"${a${b}}"`, whose single key
carries a nested open sequence. -/
theorem claim1_wit :
    (true = true ↔ ∃ i, i + 1 < ([97, 36, 123, 98, 125] : List Nat).length ∧
        ([97, 36, 123, 98, 125] : List Nat).getD i 0 = 36 ∧
        ([97, 36, 123, 98, 125] : List Nat).getD (i + 1) 0 = 123) ∨
      (((Tokenizer.new [36, 123, 97, 36, 123, 98, 125, 125]).setEscape 92).finalState.level ≠ 0 ∧
       (((Tokenizer.new [36, 123, 97, 36, 123, 98, 125, 125]).setEscape 92).tokens).getLast? =
         some (Token.Key [97, 36, 123, 98, 125] true) ∧
       (true = true ↔ ∃ i, i + 3 ≤ ([97, 36, 123, 98, 125] : List Nat).length ∧
         ([97, 36, 123, 98, 125] : List Nat).getD i 0 = 36 ∧
         ([97, 36, 123, 98, 125] : List Nat).getD (i + 1) 0 = 123)) :=
  claim1_amended [36, 123, 97, 36, 123, 98, 125, 125] 92 (by decide)
    [97, 36, 123, 98, 125] true (by decide)

theorem scanLoop_open_step (g : Nat) (t : Tokenizer) (start : Nat) (tok : List Nat)
    (hslice : listSlice t.data start t.read = tok)
    (hlv : t.level = 0)
    (hrl : t.read < t.data.length)
    (hne : t.data.getD t.read 0 ≠ t.escape)
    (hgate : 2 < t.data.length - t.read)
    (h36 : t.data.getD t.read 0 = 36)
    (h123 : t.data.getD (t.read + 1) 0 = 123) :
    Tokenizer.scanLoop (g + 1) t start =
      if tok ≠ [] then
        (some (Token.Normal tok),
          (⟨t.data, t.read + 2, t.flags, 1, t.escape⟩ : Tokenizer))
      else
        Tokenizer.scanLoop g (⟨t.data, t.read + 2, t.flags, 1, t.escape⟩ : Tokenizer)
          (t.read + 2) := by
  rw [Tokenizer.scanLoop, if_pos hrl]
  dsimp only
  rw [if_neg (fun hc => hne hc.2), if_neg (fun hc => hc.1 hlv),
    if_pos ⟨hgate, h36, h123⟩, if_pos hlv, hslice]
  have hmod : (t.level + 1) % 256 = 1 := by rw [hlv]
  rw [hmod]

/-- Claim C5, amended: an unescaped `${` met at depth 0 begins a placeholder
whose text is reported as a `Key` token (preceded by a `Normal` token for the
literal span before it, when nonempty) -- provided at least one byte follows
the `{`: the gated detector `data.len() - read > 2` ignores a `${` occupying
the pattern's final two bytes, which is emitted as literal text instead (see
the counterexample).  Proved for patterns `pre ++ "${" ++ rest` whose prefix
contains no trigger byte, below the u8 depth-counter wrap bound. -/
theorem claim5_amended (pre rest : List Nat) (escape : Nat)
    (h36 : 36 ∉ pre) (hesc : escape ∉ pre) (hesc36 : escape ≠ 36) (hrest : rest ≠ [])
    (h511 : (pre ++ 36 :: 123 :: rest).length ≤ 511) :
    ∃ s b tl,
      ((Tokenizer.new (pre ++ 36 :: 123 :: rest)).setEscape escape).tokens =
        (if pre = [] then [] else [Token.Normal pre]) ++ Token.Key s b :: tl := by
  have hrlen : 0 < rest.length := List.length_pos.mpr hrest
  have hlen : (pre ++ 36 :: 123 :: rest).length = pre.length + (rest.length + 2) := by
    simp [List.length_append]
  have hb : ∀ p, p < pre.length →
      (pre ++ 36 :: 123 :: rest).getD p 0 ≠ escape ∧
        (pre ++ 36 :: 123 :: rest).getD p 0 ≠ 36 := by
    intro p hp
    rw [List.getD_append _ _ _ _ hp]
    exact ⟨getD_ne_of_not_mem pre escape hesc p hp, getD_ne_of_not_mem pre 36 h36 p hp⟩
  have hb36 : (pre ++ 36 :: 123 :: rest).getD pre.length 0 = 36 := by
    rw [List.getD_append_right _ _ _ _ (le_refl _), Nat.sub_self]
    rfl
  have hb123 : (pre ++ 36 :: 123 :: rest).getD (pre.length + 1) 0 = 123 := by
    rw [List.getD_append_right _ _ _ _ (by omega)]
    rw [show pre.length + 1 - pre.length = 1 from by omega]
    rfl
  have htoken : listSlice (pre ++ 36 :: 123 :: rest) 0 pre.length = pre := by
    unfold listSlice
    rw [List.take_left, List.drop_zero]
  show ∃ s b tl,
    Tokenizer.tokens
        { data := pre ++ 36 :: 123 :: rest, read := 0, flags := 0, level := 0,
          escape := escape } =
      (if pre = [] then [] else [Token.Normal pre]) ++ Token.Key s b :: tl
  have h1 : Tokenizer.next
      { data := pre ++ 36 :: 123 :: rest, read := 0, flags := 0, level := 0,
        escape := escape } =
      Tokenizer.scanLoop ((rest.length + 1) + 1)
        { data := pre ++ 36 :: 123 :: rest, read := pre.length, flags := 0, level := 0,
          escape := escape } 0 := by
    by_cases hpre : pre = []
    · subst hpre
      simp only [Tokenizer.next]
      rw [if_neg (by norm_num), if_neg (by simp)]
      rw [show (([] : List Nat) ++ 36 :: 123 :: rest).length - 0 = (rest.length + 1) + 1
        from by simp]
      rfl
    · rw [next_walk _ pre.length (by norm_num) rfl (Nat.zero_le _)
        (show pre.length ≤ (pre ++ 36 :: 123 :: rest).length by omega)
        (show 0 < (pre ++ 36 :: 123 :: rest).length by omega)
        (by intro p hp1 hp2
            replace hp2 : p < pre.length := hp2
            exact hb p hp2)]
      rw [show (pre ++ 36 :: 123 :: rest).length - pre.length = (rest.length + 1) + 1
        from by omega]
  have hstep : Tokenizer.scanLoop ((rest.length + 1) + 1)
      { data := pre ++ 36 :: 123 :: rest, read := pre.length, flags := 0, level := 0,
        escape := escape } 0 =
      if pre ≠ [] then
        (some (Token.Normal pre),
          { data := pre ++ 36 :: 123 :: rest, read := pre.length + 2, flags := 0,
            level := 1, escape := escape })
      else
        Tokenizer.scanLoop (rest.length + 1)
          { data := pre ++ 36 :: 123 :: rest, read := pre.length + 2, flags := 0,
            level := 1, escape := escape } (pre.length + 2) := by
    rw [scanLoop_open_step (rest.length + 1)
      { data := pre ++ 36 :: 123 :: rest, read := pre.length, flags := 0, level := 0,
        escape := escape } 0 pre htoken rfl
      (show pre.length < (pre ++ 36 :: 123 :: rest).length from by omega)
      (show (pre ++ 36 :: 123 :: rest).getD pre.length 0 ≠ escape from by
        rw [hb36]; exact fun h => hesc36 h.symm)
      (show 2 < (pre ++ 36 :: 123 :: rest).length - pre.length from by omega)
      hb36 hb123]
  rw [hstep] at h1
  by_cases hpre : pre = []
  · rw [if_neg (show ¬ pre ≠ [] from fun hc => hc hpre)] at h1
    have hsk := scanKey (rest.length + 1)
      { data := pre ++ 36 :: 123 :: rest, read := pre.length + 2, flags := 0,
        level := 1, escape := escape } (pre.length + 2)
      (show (pre ++ 36 :: 123 :: rest).length ≤ 511 from h511)
      (le_refl 1)
      (show 2 * 1 ≤ pre.length + 2 from by omega)
      (show pre.length + 2 ≤ pre.length + 2 from le_refl _)
      (show pre.length + 2 ≤ (pre ++ 36 :: 123 :: rest).length from by omega)
      (show pre.length + 2 < (pre ++ 36 :: 123 :: rest).length from by omega)
      (show (pre ++ 36 :: 123 :: rest).length - (pre.length + 2) ≤ rest.length + 1
        from by omega)
      (Or.inl rfl)
      (by constructor
          · intro h02
            exact absurd (show (0 : Nat) = 2 from h02) (by decide)
          · rintro ⟨p, hp1, hp2, _⟩
            replace hp1 : pre.length + 2 ≤ p := hp1
            replace hp2 : p + 2 ≤ pre.length + 2 := hp2
            show (0 : Nat) = 2
            omega)
      (by intro p hp1 hp2 _
          replace hp1 : p + 1 = pre.length + 2 := hp1
          replace hp2 : pre.length + 2 ≤ p := hp2
          omega)
    rcases hsk with ⟨e, bk, _, _, _, heq, _⟩ | ⟨lv, bk, _, heq, _⟩
    · have h2 : Tokenizer.next
          { data := pre ++ 36 :: 123 :: rest, read := 0, flags := 0, level := 0,
            escape := escape } =
          (some (Token.Key (listSlice (pre ++ 36 :: 123 :: rest) (pre.length + 2) e) bk),
            { data := pre ++ 36 :: 123 :: rest, read := e + 1, flags := 0, level := 0,
              escape := escape }) := h1.trans heq
      rw [if_pos hpre]
      refine ⟨listSlice (pre ++ 36 :: 123 :: rest) (pre.length + 2) e, bk,
        (Tokenizer.tokenizeAux ((pre ++ 36 :: 123 :: rest).length + 1)
          { data := pre ++ 36 :: 123 :: rest, read := e + 1, flags := 0, level := 0,
            escape := escape }).1, ?_⟩
      rw [Tokenizer.tokens]
      rw [tokenizeAux_succ_some _ _ _ _ h2]
      rfl
    · have h2 : Tokenizer.next
          { data := pre ++ 36 :: 123 :: rest, read := 0, flags := 0, level := 0,
            escape := escape } =
          (some (Token.Key ((pre ++ 36 :: 123 :: rest).drop (pre.length + 2)) bk),
            { data := pre ++ 36 :: 123 :: rest, read := (pre ++ 36 :: 123 :: rest).length,
              flags := 0, level := lv, escape := escape }) := h1.trans heq
      rw [if_pos hpre]
      refine ⟨(pre ++ 36 :: 123 :: rest).drop (pre.length + 2), bk,
        (Tokenizer.tokenizeAux ((pre ++ 36 :: 123 :: rest).length + 1)
          { data := pre ++ 36 :: 123 :: rest, read := (pre ++ 36 :: 123 :: rest).length,
            flags := 0, level := lv, escape := escape }).1, ?_⟩
      rw [Tokenizer.tokens]
      rw [tokenizeAux_succ_some _ _ _ _ h2]
      rfl
  · rw [if_pos hpre] at h1
    have hsk := scanKey (rest.length)
      { data := pre ++ 36 :: 123 :: rest, read := pre.length + 2, flags := 0,
        level := 1, escape := escape } (pre.length + 2)
      (show (pre ++ 36 :: 123 :: rest).length ≤ 511 from h511)
      (le_refl 1)
      (show 2 * 1 ≤ pre.length + 2 from by omega)
      (show pre.length + 2 ≤ pre.length + 2 from le_refl _)
      (show pre.length + 2 ≤ (pre ++ 36 :: 123 :: rest).length from by omega)
      (show pre.length + 2 < (pre ++ 36 :: 123 :: rest).length from by omega)
      (show (pre ++ 36 :: 123 :: rest).length - (pre.length + 2) ≤ rest.length
        from by omega)
      (Or.inl rfl)
      (by constructor
          · intro h02
            exact absurd (show (0 : Nat) = 2 from h02) (by decide)
          · rintro ⟨p, hp1, hp2, _⟩
            replace hp1 : pre.length + 2 ≤ p := hp1
            replace hp2 : p + 2 ≤ pre.length + 2 := hp2
            show (0 : Nat) = 2
            omega)
      (by intro p hp1 hp2 _
          replace hp1 : p + 1 = pre.length + 2 := hp1
          replace hp2 : pre.length + 2 ≤ p := hp2
          omega)
    rcases hsk with ⟨e, bk, _, _, _, heq, _⟩ | ⟨lv, bk, _, heq, _⟩
    · have h2 : Tokenizer.next
          { data := pre ++ 36 :: 123 :: rest, read := pre.length + 2, flags := 0,
            level := 1, escape := escape } =
          (some (Token.Key (listSlice (pre ++ 36 :: 123 :: rest) (pre.length + 2) e) bk),
            { data := pre ++ 36 :: 123 :: rest, read := e + 1, flags := 0, level := 0,
              escape := escape }) := by
        rw [next_eq_scanLoop _ rfl
          (show pre.length + 2 < (pre ++ 36 :: 123 :: rest).length from by omega)]
        rw [show (pre ++ 36 :: 123 :: rest).length - (pre.length + 2) = rest.length
          from by omega]
        exact heq
      rw [if_neg hpre]
      refine ⟨listSlice (pre ++ 36 :: 123 :: rest) (pre.length + 2) e, bk,
        (Tokenizer.tokenizeAux ((pre ++ 36 :: 123 :: rest).length)
          { data := pre ++ 36 :: 123 :: rest, read := e + 1, flags := 0, level := 0,
            escape := escape }).1, ?_⟩
      rw [Tokenizer.tokens]
      rw [tokenizeAux_succ_some _ _ _ _ h1]
      rw [tokenizeAux_succ_some _ _ _ _ h2]
      rfl
    · have h2 : Tokenizer.next
          { data := pre ++ 36 :: 123 :: rest, read := pre.length + 2, flags := 0,
            level := 1, escape := escape } =
          (some (Token.Key ((pre ++ 36 :: 123 :: rest).drop (pre.length + 2)) bk),
            { data := pre ++ 36 :: 123 :: rest, read := (pre ++ 36 :: 123 :: rest).length,
              flags := 0, level := lv, escape := escape }) := by
        rw [next_eq_scanLoop _ rfl
          (show pre.length + 2 < (pre ++ 36 :: 123 :: rest).length from by omega)]
        rw [show (pre ++ 36 :: 123 :: rest).length - (pre.length + 2) = rest.length
          from by omega]
        exact heq
      rw [if_neg hpre]
      refine ⟨(pre ++ 36 :: 123 :: rest).drop (pre.length + 2), bk,
        (Tokenizer.tokenizeAux ((pre ++ 36 :: 123 :: rest).length)
          { data := pre ++ 36 :: 123 :: rest, read := (pre ++ 36 :: 123 :: rest).length,
            flags := 0, level := lv, escape := escape }).1, ?_⟩
      rw [Tokenizer.tokens]
      rw [tokenizeAux_succ_some _ _ _ _ h1]
      rw [tokenizeAux_succ_some _ _ _ _ h2]
      rfl

/-- Witness for claim C5's amended theorem on `"a${b"`. -/
theorem claim5_wit :
    ∃ s b tl,
      ((Tokenizer.new ([97] ++ 36 :: 123 :: [98])).setEscape 92).tokens =
        (if ([97] : List Nat) = [] then [] else [Token.Normal [97]]) ++
          Token.Key s b :: tl :=
  claim5_amended [97] [98] 92 (by decide) (by decide) (by decide) (by decide) (by decide)

/-! ## UTF-8 structural lemmas

`&str` slicing never panics when the indices are character boundaries; the
lemmas here connect `validUtf8` (the structural well-formedness every Rust
`&str` enjoys) with the positional `charBoundary` predicate: a boundary of a
valid string starts a valid suffix, one decoded character always fits, and
stepping over a character lands on the next boundary.
-/

theorem validUtf8Aux_zero_cons (b : Nat) (rest : List Nat) :
    validUtf8Aux 0 (b :: rest) =
      (if b < 128 then validUtf8Aux 0 rest
       else if b < 192 then false
       else if b < 224 then validUtf8Aux 1 rest
       else if b < 240 then validUtf8Aux 2 rest
       else if b < 248 then validUtf8Aux 3 rest
       else false) := rfl

theorem validUtf8Aux_succ_nil (k : Nat) : validUtf8Aux (k + 1) [] = false := rfl

theorem validUtf8Aux_succ_cons (k b : Nat) (rest : List Nat) :
    validUtf8Aux (k + 1) (b :: rest) = (isContByte b && validUtf8Aux k rest) := rfl

theorem isContByte_of_lt (b : Nat) (h : b < 128) : isContByte b = false := by
  simp only [isContByte, decide_eq_false_iff_not]
  omega

theorem charBoundary_le (data : List Nat) (i : Nat) (h : charBoundary data i = true) :
    i ≤ data.length := by
  simp only [charBoundary, decide_eq_true_eq] at h
  rcases h with h | h | h <;> omega

theorem charBoundary_zero (data : List Nat) : charBoundary data 0 = true := by
  simp [charBoundary]

theorem charBoundary_len (data : List Nat) : charBoundary data data.length = true := by
  simp [charBoundary]

theorem charBoundary_ascii (data : List Nat) (i : Nat) (hi : i < data.length)
    (hb : data.getD i 0 < 128) : charBoundary data i = true := by
  simp only [charBoundary, decide_eq_true_eq]
  right
  right
  exact ⟨hi, isContByte_of_lt _ hb⟩

theorem validUtf8_head_not_cont (l : List Nat) (hv : validUtf8 l = true) :
    isContByte (l.getD 0 0) = false := by
  cases l with
  | nil => decide
  | cons b rest =>
    rw [List.getD_cons_zero]
    unfold validUtf8 at hv
    rw [validUtf8Aux_zero_cons] at hv
    by_cases h1 : b < 128
    · exact isContByte_of_lt b h1
    · rw [if_neg h1] at hv
      by_cases h2 : b < 192
      · rw [if_pos h2] at hv
        simp at hv
      · simp only [isContByte, decide_eq_false_iff_not]
        omega

theorem validUtf8_char_fits (b : Nat) (rest : List Nat)
    (hv : validUtf8 (b :: rest) = true) :
    utf8CharLen b ≤ (b :: rest).length ∧
      validUtf8 ((b :: rest).drop (utf8CharLen b)) = true := by
  unfold validUtf8 at hv ⊢
  rw [validUtf8Aux_zero_cons] at hv
  unfold utf8CharLen
  split_ifs at hv with h1 h2 h3 h4 h5
  · rw [if_pos h1]
    exact ⟨by simp, hv⟩
  · rw [if_neg h1, if_neg h2, if_pos h3]
    cases rest with
    | nil => rw [validUtf8Aux_succ_nil] at hv; simp at hv
    | cons c1 r =>
      rw [validUtf8Aux_succ_cons, Bool.and_eq_true] at hv
      exact ⟨by simp, hv.2⟩
  · rw [if_neg h1, if_neg h2, if_neg h3, if_pos h4]
    cases rest with
    | nil => rw [validUtf8Aux_succ_nil] at hv; simp at hv
    | cons c1 r1 =>
      rw [validUtf8Aux_succ_cons, Bool.and_eq_true] at hv
      cases r1 with
      | nil => rw [validUtf8Aux_succ_nil] at hv; simp at hv
      | cons c2 r =>
        rw [validUtf8Aux_succ_cons, Bool.and_eq_true] at hv
        exact ⟨by simp, hv.2.2⟩
  · rw [if_neg h1, if_neg h2, if_neg h3, if_neg h4]
    cases rest with
    | nil => rw [validUtf8Aux_succ_nil] at hv; simp at hv
    | cons c1 r1 =>
      rw [validUtf8Aux_succ_cons, Bool.and_eq_true] at hv
      cases r1 with
      | nil => rw [validUtf8Aux_succ_nil] at hv; simp at hv
      | cons c2 r2 =>
        rw [validUtf8Aux_succ_cons, Bool.and_eq_true] at hv
        cases r2 with
        | nil => rw [validUtf8Aux_succ_nil] at hv; simp at hv
        | cons c3 r =>
          rw [validUtf8Aux_succ_cons, Bool.and_eq_true] at hv
          refine ⟨by simp, ?_⟩
          exact hv.2.2.2

theorem validUtf8_drop (n : Nat) : ∀ (data : List Nat), data.length ≤ n →
    validUtf8 data = true → ∀ i, i ≤ data.length →
    (i = data.length ∨ isContByte (data.getD i 0) = false) →
    validUtf8 (data.drop i) = true := by
  induction n with
  | zero =>
    intro data hn hv i hi _
    have hd : data = [] := List.eq_nil_of_length_eq_zero (by omega)
    subst hd
    have hi0 : i = 0 := by simp at hi; omega
    subst hi0
    exact hv
  | succ n ih =>
    intro data hn hv i hi hcond
    cases data with
    | nil =>
      have hi0 : i = 0 := by simp at hi; omega
      subst hi0
      exact hv
    | cons b rest =>
      cases i with
      | zero => exact hv
      | succ j =>
        rw [List.length_cons] at hi
        unfold validUtf8 at hv
        rw [validUtf8Aux_zero_cons] at hv
        split_ifs at hv with h1 h3 h4 h5
        · -- one-byte character
          rw [List.drop_succ_cons]
          apply ih rest (by rw [List.length_cons] at hn; omega) hv j (by omega)
          rcases hcond with hc | hc
          · left
            rw [List.length_cons] at hc
            omega
          · right
            rw [List.getD_cons_succ] at hc
            exact hc
        · -- two-byte character
          cases rest with
          | nil => rw [validUtf8Aux_succ_nil] at hv; simp at hv
          | cons c1 r =>
            rw [validUtf8Aux_succ_cons, Bool.and_eq_true] at hv
            obtain ⟨hc1, hr⟩ := hv
            cases j with
            | zero =>
              rcases hcond with hc | hc
              · rw [List.length_cons, List.length_cons] at hc
                omega
              · rw [List.getD_cons_succ, List.getD_cons_zero] at hc
                rw [hc1] at hc
                simp at hc
            | succ k =>
              rw [List.drop_succ_cons, List.drop_succ_cons]
              apply ih r (by rw [List.length_cons, List.length_cons] at hn; omega) hr k
                (by rw [List.length_cons] at hi; omega)
              rcases hcond with hc | hc
              · left
                rw [List.length_cons, List.length_cons] at hc
                omega
              · right
                rw [List.getD_cons_succ, List.getD_cons_succ] at hc
                exact hc
        · -- three-byte character
          cases rest with
          | nil => rw [validUtf8Aux_succ_nil] at hv; simp at hv
          | cons c1 r1 =>
            rw [validUtf8Aux_succ_cons, Bool.and_eq_true] at hv
            obtain ⟨hc1, hv⟩ := hv
            cases r1 with
            | nil => rw [validUtf8Aux_succ_nil] at hv; simp at hv
            | cons c2 r =>
              rw [validUtf8Aux_succ_cons, Bool.and_eq_true] at hv
              obtain ⟨hc2, hr⟩ := hv
              cases j with
              | zero =>
                rcases hcond with hc | hc
                · rw [List.length_cons, List.length_cons, List.length_cons] at hc
                  omega
                · rw [List.getD_cons_succ, List.getD_cons_zero] at hc
                  rw [hc1] at hc
                  simp at hc
              | succ jj =>
                cases jj with
                | zero =>
                  rcases hcond with hc | hc
                  · rw [List.length_cons, List.length_cons, List.length_cons] at hc
                    omega
                  · rw [List.getD_cons_succ, List.getD_cons_succ,
                      List.getD_cons_zero] at hc
                    rw [hc2] at hc
                    simp at hc
                | succ k =>
                  rw [List.drop_succ_cons, List.drop_succ_cons, List.drop_succ_cons]
                  apply ih r
                    (by rw [List.length_cons, List.length_cons, List.length_cons] at hn
                        omega)
                    hr k
                    (by rw [List.length_cons, List.length_cons] at hi; omega)
                  rcases hcond with hc | hc
                  · left
                    rw [List.length_cons, List.length_cons, List.length_cons] at hc
                    omega
                  · right
                    rw [List.getD_cons_succ, List.getD_cons_succ,
                      List.getD_cons_succ] at hc
                    exact hc
        · -- four-byte character
          cases rest with
          | nil => rw [validUtf8Aux_succ_nil] at hv; simp at hv
          | cons c1 r1 =>
            rw [validUtf8Aux_succ_cons, Bool.and_eq_true] at hv
            obtain ⟨hc1, hv⟩ := hv
            cases r1 with
            | nil => rw [validUtf8Aux_succ_nil] at hv; simp at hv
            | cons c2 r2 =>
              rw [validUtf8Aux_succ_cons, Bool.and_eq_true] at hv
              obtain ⟨hc2, hv⟩ := hv
              cases r2 with
              | nil => rw [validUtf8Aux_succ_nil] at hv; simp at hv
              | cons c3 r =>
                rw [validUtf8Aux_succ_cons, Bool.and_eq_true] at hv
                obtain ⟨hc3, hr⟩ := hv
                cases j with
                | zero =>
                  rcases hcond with hc | hc
                  · rw [List.length_cons, List.length_cons, List.length_cons,
                      List.length_cons] at hc
                    omega
                  · rw [List.getD_cons_succ, List.getD_cons_zero] at hc
                    rw [hc1] at hc
                    simp at hc
                | succ jj =>
                  cases jj with
                  | zero =>
                    rcases hcond with hc | hc
                    · rw [List.length_cons, List.length_cons, List.length_cons,
                        List.length_cons] at hc
                      omega
                    · rw [List.getD_cons_succ, List.getD_cons_succ,
                        List.getD_cons_zero] at hc
                      rw [hc2] at hc
                      simp at hc
                  | succ kk =>
                    cases kk with
                    | zero =>
                      rcases hcond with hc | hc
                      · rw [List.length_cons, List.length_cons, List.length_cons,
                          List.length_cons] at hc
                        omega
                      · rw [List.getD_cons_succ, List.getD_cons_succ,
                          List.getD_cons_succ, List.getD_cons_zero] at hc
                        rw [hc3] at hc
                        simp at hc
                    | succ k =>
                      rw [List.drop_succ_cons, List.drop_succ_cons,
                        List.drop_succ_cons, List.drop_succ_cons]
                      apply ih r
                        (by rw [List.length_cons, List.length_cons, List.length_cons,
                              List.length_cons] at hn
                            omega)
                        hr k
                        (by rw [List.length_cons, List.length_cons,
                              List.length_cons] at hi
                            omega)
                      rcases hcond with hc | hc
                      · left
                        rw [List.length_cons, List.length_cons, List.length_cons,
                          List.length_cons] at hc
                        omega
                      · right
                        rw [List.getD_cons_succ, List.getD_cons_succ,
                          List.getD_cons_succ, List.getD_cons_succ] at hc
                        exact hc

theorem validUtf8_suffix (data : List Nat) (hv : validUtf8 data = true)
    (i : Nat) (hi : i ≤ data.length) (hb : charBoundary data i = true) :
    validUtf8 (data.drop i) = true := by
  apply validUtf8_drop data.length data (le_refl _) hv i hi
  simp only [charBoundary, decide_eq_true_eq] at hb
  rcases hb with h | h | h
  · subst h
    right
    exact validUtf8_head_not_cont data hv
  · left
    exact h
  · right
    exact h.2

theorem validUtf8_boundary_step (data : List Nat) (hv : validUtf8 data = true)
    (i : Nat) (hi : i < data.length) (hb : charBoundary data i = true) :
    i + utf8CharLen (data.getD i 0) ≤ data.length ∧
      charBoundary data (i + utf8CharLen (data.getD i 0)) = true := by
  have hsuf : validUtf8 (data.drop i) = true :=
    validUtf8_suffix data hv i (by omega) hb
  have hne : data.drop i ≠ [] := by
    intro hcon
    rw [List.drop_eq_nil_iff] at hcon
    omega
  obtain ⟨b, rest, hbr⟩ := List.exists_cons_of_ne_nil hne
  have hgd : data.getD i 0 = b := by
    have h0 := getD_drop data i 0
    rw [hbr] at h0
    simpa using h0.symm
  have hfits := validUtf8_char_fits b rest (by rw [← hbr]; exact hsuf)
  have hlend : (data.drop i).length = data.length - i := List.length_drop _ _
  have hfit1 : utf8CharLen b ≤ data.length - i := by
    have h1 := hfits.1
    rw [← hbr, hlend] at h1
    exact h1
  constructor
  · rw [hgd]
    omega
  · rw [hgd]
    by_cases hend : i + utf8CharLen b = data.length
    · rw [hend]
      exact charBoundary_len data
    · have hv2 := hfits.2
      rw [← hbr, List.drop_drop] at hv2
      have hnc := validUtf8_head_not_cont _ hv2
      rw [getD_drop] at hnc
      simp only [charBoundary, decide_eq_true_eq]
      right
      right
      refine ⟨by omega, ?_⟩
      simpa using hnc

theorem validUtf8_no_overshoot (data : List Nat) (hv : validUtf8 data = true)
    (r : Nat) (hr : r < data.length) :
    r + utf8CharLen (data.getD r 0) ≤ data.length := by
  by_cases hc : isContByte (data.getD r 0) = true
  · have hlen1 : utf8CharLen (data.getD r 0) = 1 := by
      simp only [isContByte, decide_eq_true_eq] at hc
      unfold utf8CharLen
      rw [if_neg (by omega), if_pos (by omega)]
    omega
  · have hb : charBoundary data r = true := by
      simp only [charBoundary, decide_eq_true_eq]
      right
      right
      exact ⟨hr, by simpa using hc⟩
    exact (validUtf8_boundary_step data hv r hr hb).1

theorem endPhase_read (t : Tokenizer) (start : Nat) :
    (t.endPhase start).2.read = t.data.length := by
  simp only [Tokenizer.endPhase]
  split_ifs <;> rfl

theorem escapedCharacter_read_boundary (t : Tokenizer) (hv : validUtf8 t.data = true)
    (hb : charBoundary t.data t.read = true) :
    charBoundary t.data t.escapedCharacter.2.read = true := by
  unfold Tokenizer.escapedCharacter
  split
  · exact hb
  · rename_i b rest hd
    have hlt : t.read < t.data.length := by
      by_contra hcon
      rw [List.drop_eq_nil_iff.mpr (by omega)] at hd
      exact absurd hd (by simp)
    have hgd : t.data.getD t.read 0 = b := by
      have h0 := getD_drop t.data t.read 0
      rw [hd] at h0
      simpa using h0.symm
    have hstep := validUtf8_boundary_step t.data hv t.read hlt hb
    rw [hgd] at hstep
    exact hstep.2

theorem scanSafe (gas : Nat) : ∀ (t : Tokenizer) (start : Nat),
    validUtf8 t.data = true → t.escape < 128 →
    charBoundary t.data start = true → start ≤ t.read → t.read ≤ t.data.length →
    t.data.length - t.read ≤ gas →
    scanPanics gas t start = false ∧
      charBoundary t.data (Tokenizer.scanLoop gas t start).2.read = true := by
  induction gas with
  | zero =>
    intro t start hv hesc hstart hsr hrlen hgas
    constructor
    · show (!charBoundary t.data start) = false
      rw [hstart]
      rfl
    · show charBoundary t.data (t.endPhase start).2.read = true
      rw [endPhase_read]
      exact charBoundary_len t.data
  | succ gas ih =>
    intro t start hv hesc hstart hsr hrlen hgas
    by_cases hlt : t.read < t.data.length
    case neg =>
      constructor
      · rw [scanPanics, if_neg hlt, hstart]
        rfl
      · rw [Tokenizer.scanLoop, if_neg hlt]
        rw [show (t.endPhase start).2.read = t.data.length from endPhase_read t start]
        exact charBoundary_len t.data
    case pos =>
      by_cases hbe : t.level = 0 ∧ t.data.getD t.read 0 = t.escape
      · -- escape byte at depth 0
        have hbascii : t.data.getD t.read 0 < 128 := by rw [hbe.2]; exact hesc
        have hbr : charBoundary t.data t.read = true := charBoundary_ascii _ _ hlt hbascii
        have hcl1 : utf8CharLen (t.data.getD t.read 0) = 1 := by
          unfold utf8CharLen
          rw [if_pos hbascii]
        have hstep := validUtf8_boundary_step t.data hv t.read hlt hbr
        rw [hcl1] at hstep
        have hso : sliceOk t.data start t.read = true := by
          simp only [sliceOk]
          rw [hstart, hbr]
          simp [hsr]
        constructor
        · rw [scanPanics, if_pos hlt]
          dsimp only
          rw [if_pos hbe, hso]
          simp only [Bool.not_true, Bool.false_or]
          split_ifs
          · simp [escCharPanics, hstep.2]
          · rfl
        · rw [Tokenizer.scanLoop, if_pos hlt]
          dsimp only
          rw [if_pos hbe]
          split_ifs with htok
          · exact escapedCharacter_read_boundary
              { t with read := t.read + 1 } hv hstep.2
          · show charBoundary t.data (t.read + 1) = true
            exact hstep.2
      · rw [scanPanics, if_pos hlt]
        rw [Tokenizer.scanLoop, if_pos hlt]
        dsimp only
        rw [if_neg hbe, if_neg hbe]
        by_cases hcl : t.level ≠ 0 ∧ t.data.getD t.read 0 = 125
        · -- close byte inside a placeholder
          have hbascii : t.data.getD t.read 0 < 128 := by rw [hcl.2]; omega
          have hbr : charBoundary t.data t.read = true :=
            charBoundary_ascii _ _ hlt hbascii
          have hcl1 : utf8CharLen (t.data.getD t.read 0) = 1 := by
            unfold utf8CharLen
            rw [if_pos hbascii]
          have hstep := validUtf8_boundary_step t.data hv t.read hlt hbr
          rw [hcl1] at hstep
          have hso : sliceOk t.data start t.read = true := by
            simp only [sliceOk]
            rw [hstart, hbr]
            simp [hsr]
          rw [if_pos hcl, if_pos hcl]
          by_cases hl0 : t.level - 1 = 0
          · rw [if_pos hl0, if_pos hl0]
            constructor
            · rw [hso]
              rfl
            · show charBoundary t.data (t.read + 1) = true
              exact hstep.2
          · rw [if_neg hl0, if_neg hl0]
            exact ih { t with read := t.read + 1, level := t.level - 1 } start hv hesc
              hstart (by show start ≤ t.read + 1; omega)
              (by show t.read + 1 ≤ t.data.length; omega)
              (by show t.data.length - (t.read + 1) ≤ gas; omega)
        · rw [if_neg hcl, if_neg hcl]
          by_cases hop : 2 < t.data.length - t.read ∧ t.data.getD t.read 0 = 36 ∧
              t.data.getD (t.read + 1) 0 = 123
          · -- open sequence
            have hb36 : t.data.getD t.read 0 < 128 := by rw [hop.2.1]; omega
            have hbr : charBoundary t.data t.read = true :=
              charBoundary_ascii _ _ hlt hb36
            have hcl36 : utf8CharLen (t.data.getD t.read 0) = 1 := by
              unfold utf8CharLen
              rw [if_pos hb36]
            have hstep1 := validUtf8_boundary_step t.data hv t.read hlt hbr
            rw [hcl36] at hstep1
            have hlt1 : t.read + 1 < t.data.length := by
              have := hop.1
              omega
            have hb123 : t.data.getD (t.read + 1) 0 < 128 := by rw [hop.2.2]; omega
            have hcl123 : utf8CharLen (t.data.getD (t.read + 1) 0) = 1 := by
              unfold utf8CharLen
              rw [if_pos hb123]
            have hstep2 := validUtf8_boundary_step t.data hv (t.read + 1) hlt1 hstep1.2
            rw [hcl123] at hstep2
            have hb2 : charBoundary t.data (t.read + 2) = true := by
              have := hstep2.2
              rw [show t.read + 1 + 1 = t.read + 2 from by omega] at this
              exact this
            have hso : sliceOk t.data start t.read = true := by
              simp only [sliceOk]
              rw [hstart, hbr]
              simp [hsr]
            rw [if_pos hop, if_pos hop]
            by_cases hlv : t.level = 0
            · rw [if_pos hlv, if_pos hlv]
              by_cases htok : listSlice t.data start t.read = []
              · rw [if_pos htok, if_neg (fun hc => hc htok)]
                have hih := ih
                  { t with level := (t.level + 1) % 256, read := t.read + 2 }
                  (t.read + 2) hv hesc hb2
                  (by show t.read + 2 ≤ t.read + 2; omega)
                  (by show t.read + 2 ≤ t.data.length; have := hop.1; omega)
                  (by show t.data.length - (t.read + 2) ≤ gas; omega)
                constructor
                · rw [hso]
                  simp only [Bool.not_true, Bool.false_or]
                  exact hih.1
                · exact hih.2
              · rw [if_neg htok, if_pos htok]
                constructor
                · rw [hso]
                  rfl
                · show charBoundary t.data (t.read + 2) = true
                  exact hb2
            · rw [if_neg hlv, if_neg hlv]
              exact ih
                { t with flags := t.flags ||| INNER_TOKENS,
                         level := (t.level + 1) % 256, read := t.read + 2 }
                start hv hesc hstart
                (by show start ≤ t.read + 2; omega)
                (by show t.read + 2 ≤ t.data.length; have := hop.1; omega)
                (by show t.data.length - (t.read + 2) ≤ gas; omega)
          · rw [if_neg hop, if_neg hop]
            exact ih { t with read := t.read + 1 } start hv hesc hstart
              (by show start ≤ t.read + 1; omega)
              (by show t.read + 1 ≤ t.data.length; omega)
              (by show t.data.length - (t.read + 1) ≤ gas; omega)

theorem runSafe (fuel : Nat) : ∀ t : Tokenizer,
    validUtf8 t.data = true → t.escape < 128 →
    charBoundary t.data t.read = true →
    runPanicFree fuel t = true := by
  induction fuel with
  | zero => intro t _ _ _; rfl
  | succ fuel ih =>
    intro t hv hesc hb
    by_cases hA : t.flags &&& ESCAPED ≠ 0
    · have hnp : nextPanics t = false := by
        rw [nextPanics, if_pos hA]
        simp [escCharPanics, hb]
      have hnx : t.next = (some (Tokenizer.escapedCharacter
          { t with flags := t.flags ^^^ ESCAPED }).1,
          (Tokenizer.escapedCharacter { t with flags := t.flags ^^^ ESCAPED }).2) := by
        simp only [Tokenizer.next]
        rw [if_pos hA]
      rw [runPanicFree, hnp, hnx]
      show runPanicFree fuel
        (Tokenizer.escapedCharacter { t with flags := t.flags ^^^ ESCAPED }).2 = true
      refine ih _ ?_ ?_ ?_
      · rw [escapedCharacter_data]
        exact hv
      · rw [escapedCharacter_escape]
        exact hesc
      · rw [escapedCharacter_data]
        exact escapedCharacter_read_boundary { t with flags := t.flags ^^^ ESCAPED } hv hb
    · by_cases hex : t.data.length ≤ t.read
      · have hnp : nextPanics t = false := by
          rw [nextPanics, if_neg hA, if_pos hex]
        have hnx : t.next = (none, t) := next_exhausted t (not_not.mp hA) hex
        rw [runPanicFree, hnp, hnx]
        rfl
      · have hsc := scanSafe (t.data.length - t.read) t t.read hv hesc hb (le_refl _)
          (by omega) (le_refl _)
        have hnp : nextPanics t = false := by
          rw [nextPanics, if_neg hA, if_neg hex]
          exact hsc.1
        have hnx : t.next = Tokenizer.scanLoop (t.data.length - t.read) t t.read := by
          simp only [Tokenizer.next]
          rw [if_neg hA, if_neg hex]
        rcases hres : Tokenizer.scanLoop (t.data.length - t.read) t t.read with ⟨o, t2⟩
        have h2 : (Tokenizer.scanLoop (t.data.length - t.read) t t.read).2 = t2 := by
          rw [hres]
        cases o with
        | none =>
          rw [runPanicFree, hnp, hnx, hres]
          rfl
        | some tok =>
          rw [runPanicFree, hnp, hnx, hres]
          show runPanicFree fuel t2 = true
          have hdata : t2.data = t.data := by
            rw [← h2]
            exact scanLoop_data _ t t.read
          refine ih t2 ?_ ?_ ?_
          · rw [hdata]
            exact hv
          · rw [show t2.escape = t.escape from by rw [← h2]; exact scanLoop_escape _ t t.read]
            exact hesc
          · rw [hdata]
            rw [h2] at hsc
            exact hsc.2

/-- Claim C2, amended: advancing the scanner never panics for any valid
UTF-8 pattern as long as the configured escape byte is an ASCII byte
(`< 0x80`).  The spec's "arbitrary byte value, including bytes that occur
inside multi-byte UTF-8 code points" is exactly the exception: such an
escape byte can match in the middle of a code point, and the str slice
taken there panics (see the counterexample). -/
theorem claim2_amended (data : List Nat) (escape : Nat) (fuel : Nat)
    (hv : validUtf8 data = true) (hesc : escape < 128) :
    runPanicFree fuel ((Tokenizer.new data).setEscape escape) = true :=
  runSafe fuel ((Tokenizer.new data).setEscape escape) hv hesc (charBoundary_zero data)

/-- Witness for claim C2's amended theorem: the two-byte pattern `"é"` with
the default backslash escape. -/
theorem claim2_wit : runPanicFree 4 ((Tokenizer.new [195, 169]).setEscape 92) = true :=
  claim2_amended [195, 169] 92 4 (by decide) (by decide)

theorem escapedCharacter_read_bounds (t : Tokenizer) (hv : validUtf8 t.data = true)
    (hr : t.read ≤ t.data.length) :
    t.read ≤ t.escapedCharacter.2.read ∧ t.escapedCharacter.2.read ≤ t.data.length := by
  unfold Tokenizer.escapedCharacter
  split
  · exact ⟨le_refl _, hr⟩
  · rename_i b rest hd
    have hlt : t.read < t.data.length := by
      by_contra hcon
      rw [List.drop_eq_nil_iff.mpr (by omega)] at hd
      exact absurd hd (by simp)
    have hgd : t.data.getD t.read 0 = b := by
      have h0 := getD_drop t.data t.read 0
      rw [hd] at h0
      simpa using h0.symm
    have hov := validUtf8_no_overshoot t.data hv t.read hlt
    rw [hgd] at hov
    exact ⟨by show t.read ≤ t.read + utf8CharLen b; omega,
      by show t.read + utf8CharLen b ≤ t.data.length; omega⟩

theorem scanLoop_read_bounds (gas : Nat) : ∀ (t : Tokenizer) (start : Nat),
    validUtf8 t.data = true → t.read ≤ t.data.length →
    t.read ≤ (Tokenizer.scanLoop gas t start).2.read ∧
      (Tokenizer.scanLoop gas t start).2.read ≤ t.data.length := by
  induction gas with
  | zero =>
    intro t start hv hr
    rw [show (Tokenizer.scanLoop 0 t start).2.read = t.data.length from
      endPhase_read t start]
    exact ⟨hr, le_refl _⟩
  | succ gas ih =>
    intro t start hv hr
    by_cases hlt : t.read < t.data.length
    case neg =>
      rw [Tokenizer.scanLoop, if_neg hlt]
      rw [show (t.endPhase start).2.read = t.data.length from endPhase_read t start]
      exact ⟨hr, le_refl _⟩
    case pos =>
      rw [Tokenizer.scanLoop, if_pos hlt]
      dsimp only
      by_cases hbe : t.level = 0 ∧ t.data.getD t.read 0 = t.escape
      · rw [if_pos hbe]
        split_ifs with htok
        · have hb := escapedCharacter_read_bounds { t with read := t.read + 1 } hv
            (by show t.read + 1 ≤ t.data.length; omega)
          have hb1 : t.read + 1 ≤
              (Tokenizer.escapedCharacter { t with read := t.read + 1 }).2.read := hb.1
          exact ⟨le_trans (Nat.le_succ _) hb1, hb.2⟩
        · exact ⟨by show t.read ≤ t.read + 1; omega,
            by show t.read + 1 ≤ t.data.length; omega⟩
      · rw [if_neg hbe]
        by_cases hcl : t.level ≠ 0 ∧ t.data.getD t.read 0 = 125
        · rw [if_pos hcl]
          by_cases hl0 : t.level - 1 = 0
          · rw [if_pos hl0]
            exact ⟨by show t.read ≤ t.read + 1; omega,
              by show t.read + 1 ≤ t.data.length; omega⟩
          · rw [if_neg hl0]
            have hih := ih { t with read := t.read + 1, level := t.level - 1 } start hv
              (by show t.read + 1 ≤ t.data.length; omega)
            exact ⟨le_trans (Nat.le_succ _) hih.1, hih.2⟩
        · rw [if_neg hcl]
          by_cases hop : 2 < t.data.length - t.read ∧ t.data.getD t.read 0 = 36 ∧
              t.data.getD (t.read + 1) 0 = 123
          · rw [if_pos hop]
            by_cases hlv : t.level = 0
            · rw [if_pos hlv]
              split_ifs with htok
              · exact ⟨by show t.read ≤ t.read + 2; omega,
                  by show t.read + 2 ≤ t.data.length; have := hop.1; omega⟩
              · have hih := ih
                  { t with level := (t.level + 1) % 256, read := t.read + 2 }
                  (t.read + 2) hv
                  (by show t.read + 2 ≤ t.data.length; have := hop.1; omega)
                exact ⟨le_trans (show t.read ≤ t.read + 2 from by omega) hih.1, hih.2⟩
            · rw [if_neg hlv]
              have hih := ih
                { t with flags := t.flags ||| INNER_TOKENS,
                         level := (t.level + 1) % 256, read := t.read + 2 }
                start hv
                (by show t.read + 2 ≤ t.data.length; have := hop.1; omega)
              exact ⟨le_trans (show t.read ≤ t.read + 2 from by omega) hih.1, hih.2⟩
          · rw [if_neg hop]
            have hih := ih { t with read := t.read + 1 } start hv
              (by show t.read + 1 ≤ t.data.length; omega)
            exact ⟨le_trans (Nat.le_succ _) hih.1, hih.2⟩

theorem next_read_bounds (t : Tokenizer) (hv : validUtf8 t.data = true)
    (hr : t.read ≤ t.data.length) :
    t.read ≤ t.next.2.read ∧ t.next.2.read ≤ t.data.length := by
  simp only [Tokenizer.next]
  split_ifs with h1 h2
  · exact escapedCharacter_read_bounds { t with flags := t.flags ^^^ ESCAPED } hv hr
  · exact ⟨le_refl _, hr⟩
  · exact scanLoop_read_bounds _ t t.read hv hr

/-- The states reachable from `t0` by repeatedly calling `next` (keeping the
state component, discarding the yielded tokens). -/
inductive Reach (t0 : Tokenizer) : Tokenizer → Prop where
  | refl : Reach t0 t0
  | step (t : Tokenizer) : Reach t0 t → Reach t0 t.next.2

/-- Claim C9: along any run of the tokenizer on a (valid UTF-8) pattern, the
cursor reported by `read()` never decreases across an advancement step, and
after every step it satisfies `cursor ≤ len(pattern)` (the lower bound
`0 ≤ cursor` holds by the type). -/
theorem claim9_cursor (data : List Nat) (escape : Nat) (hv : validUtf8 data = true)
    (t : Tokenizer) (hr : Reach ((Tokenizer.new data).setEscape escape) t) :
    t.read ≤ t.next.2.read ∧ t.next.2.read ≤ data.length := by
  have hinv : ∀ u, Reach ((Tokenizer.new data).setEscape escape) u →
      u.data = data ∧ u.read ≤ data.length := by
    intro u hu
    induction hu with
    | refl => exact ⟨rfl, Nat.zero_le _⟩
    | step v hv2 ih =>
      obtain ⟨hd, hrd⟩ := ih
      refine ⟨by rw [next_data, hd], ?_⟩
      have hb := next_read_bounds v (by rw [hd]; exact hv) (by rw [hd]; exact hrd)
      have h2 := hb.2
      rw [hd] at h2
      exact h2
  obtain ⟨hd, hrd⟩ := hinv t hr
  have hb := next_read_bounds t (by rw [hd]; exact hv) (by rw [hd]; exact hrd)
  refine ⟨hb.1, ?_⟩
  have h2 := hb.2
  rw [hd] at h2
  exact h2

/-- Witness for claim C9 at the initial state on `"a"`. -/
theorem claim9_wit :
    ((Tokenizer.new [97]).setEscape 92).read ≤
        ((Tokenizer.new [97]).setEscape 92).next.2.read ∧
      ((Tokenizer.new [97]).setEscape 92).next.2.read ≤ ([97] : List Nat).length :=
  claim9_cursor [97] 92 (by decide) _ Reach.refl
